import Mathlib

/-!
Verification development for `create-sankematicSource.py`: a shallow embedding of
the SankeyMATIC flow generator (`generate_sankey_data` and its helpers) together
with theorems about the category-selection, aggregation and emission logic.

Modelling conventions:
* A pandas `DataFrame` row becomes a `CostRecord`; the normalized `Monthy Cost`
  column (an `int64` after line 50 of the source) is modelled as `Int`.
* `df.groupby(key)[c].sum()` sorts group keys ascending; we model the key order
  with a code-point lexicographic comparison on `String.data`, which is the
  order Python uses on `str`.
* `Series.sort_values(ascending=False)` is implemented by pandas (`nargsort`)
  as: reverse the array, argsort ascending, reverse the result.  numpy's
  `kind='quicksort'` argsort is an introsort whose generic kernel
  (`aquicksort_`) runs a stable insertion sort on segments of at most 16
  entries (`SMALL_QUICKSORT = 15`) and an unstable median-of-3 partition
  beyond that.  The pipeline model `sortDescByCost` uses a stable list
  insertion sort, which is exact for at most 16 entries and correct up to
  permutation always; the kernel itself is modelled separately
  (`npArgSortQuick`, `np_sort_values_desc`) for the tie-order question.
* Python `dict` lookups become association-list lookups, `Series.unique()`
  becomes first-occurrence deduplication.
-/

/-- Code-point lexicographic strict comparison of character lists, the order
Python uses to compare `str` values. -/
def ltChars : List Char → List Char → Bool
  | [], [] => false
  | [], _ :: _ => true
  | _ :: _, [] => false
  | a :: as, b :: bs =>
    if a.toNat < b.toNat then true
    else if b.toNat < a.toNat then false
    else ltChars as bs

/-- Strict string comparison by code points (Python `s < t`). -/
def strLtB (s t : String) : Bool := ltChars s.data t.data

/-- Non-strict string comparison by code points (Python `s <= t`). -/
def strLeB (s t : String) : Bool := !(strLtB t s)

/-- Ascending sort of a list of strings, as `sorted` / pandas groupby key order. -/
def sortStr (l : List String) : List String :=
  l.insertionSort (fun a b => strLeB a b = true)

/-- First-occurrence deduplication, as pandas `Series.unique()`. -/
def uniqueFirstAux (seen : List String) : List String → List String
  | [] => []
  | a :: t => if a ∈ seen then uniqueFirstAux seen t else a :: uniqueFirstAux (a :: seen) t

/-- First-occurrence deduplication, as pandas `Series.unique()`. -/
def uniqueFirst (l : List String) : List String := uniqueFirstAux [] l

/-- Descending-by-cost sort of `(name, cost)` pairs: pandas
`Series.sort_values(ascending=False)`, i.e. reverse, ascending argsort,
reverse again, with the argsort modelled as a stable insertion sort (ties then
keep their original relative order).  This matches numpy exactly when the list
has at most 16 entries, where `aquicksort_` is its insertion sort; for longer
lists numpy's introsort may permute equal-cost entries, and the faithful
kernel model `np_sort_values_desc` below must be used for tie-order
questions.  All uses outside the tie-order claim depend on this sort only up
to permutation. -/
def sortDescByCost (l : List (String × Int)) : List (String × Int) :=
  ((l.reverse).insertionSort (fun p q => p.2 ≤ q.2)).reverse

/-- Fuel-structured `npy_get_msb`: position of the most significant bit. -/
def npMsbAux : Nat → Nat → Nat
  | 0, _ => 0
  | fuel+1, n => if n ≥ 2 then npMsbAux fuel (n / 2) + 1 else 0

/-- numpy `npy_get_msb`, which sizes the introsort depth budget. -/
def npGetMsb (n : Nat) : Nat := npMsbAux n n

/-- Value, under the value array `v`, of the index stored at position `p` of
the index array `t` (C `v[*p]` in `aquicksort_`). -/
def npVal (v : Array Int) (t : Array Nat) (p : Nat) : Int :=
  v.getD (t.getD p 0) 0

/-- Swap of two positions of the index array (C `INTP_SWAP`). -/
def npSwap (t : Array Nat) (p q : Nat) : Array Nat :=
  let a := t.getD p 0
  let b := t.getD q 0
  (t.setD p b).setD q a

/-- C `do ++pi; while (LT(v[*pi], vp));` — advance past entries below the
pivot.  The pivot parked at `pr - 1` bounds the scan, so the fuel (passed as
the array size) is never exhausted. -/
def npScanRight (v : Array Int) (t : Array Nat) (vp : Int) : Nat → Nat → Nat
  | 0, pi => pi + 1
  | fuel+1, pi =>
    let pi' := pi + 1
    if npVal v t pi' < vp then npScanRight v t vp fuel pi' else pi'

/-- C `do --pj; while (LT(vp, v[*pj]));` — retreat past entries above the
pivot (the median-of-3 low sentinel at `pl` bounds the scan). -/
def npScanLeft (v : Array Int) (t : Array Nat) (vp : Int) : Nat → Nat → Nat
  | 0, pj => pj - 1
  | fuel+1, pj =>
    let pj' := pj - 1
    if vp < npVal v t pj' then npScanLeft v t vp fuel pj' else pj'

/-- The swap loop of the `aquicksort_` partition; returns the permuted index
array and the final `pi`. -/
def npPartitionLoop (v : Array Int) (vp : Int) : Nat → Array Nat → Nat → Nat → Array Nat × Nat
  | 0, t, pi, _ => (t, pi)
  | fuel+1, t, pi, pj =>
    let pi' := npScanRight v t vp t.size pi
    let pj' := npScanLeft v t vp t.size pj
    if pi' ≥ pj' then (t, pi')
    else npPartitionLoop v vp fuel (npSwap t pi' pj') pi' pj'

/-- Median-of-3 partition of `t[pl..pr]`, exactly the partition block of
numpy's `aquicksort_`: three compare-swaps of `pl`, `pm`, `pr`, pivot parked
at `pr - 1`, symmetric scans with swaps, pivot swapped into its slot `pi`. -/
def npPartition (v : Array Int) (t : Array Nat) (pl pr : Nat) : Array Nat × Nat :=
  let pm := pl + (pr - pl) / 2
  let t := if npVal v t pm < npVal v t pl then npSwap t pm pl else t
  let t := if npVal v t pr < npVal v t pm then npSwap t pr pm else t
  let t := if npVal v t pm < npVal v t pl then npSwap t pm pl else t
  let vp := npVal v t pm
  let t := npSwap t pm (pr - 1)
  let r := npPartitionLoop v vp (pr - pl + 2) t pl (pr - 1)
  (npSwap r.1 r.2 (pr - 1), r.2)

/-- Inner shift loop of the `aquicksort_` insertion sort
(C `while (pj > pl && LT(vp, v[*pk])) { *pj-- = *pk--; }`). -/
def npInsertLoop (v : Array Int) (vp : Int) (pl : Nat) : Nat → Array Nat → Nat → Array Nat × Nat
  | 0, t, pj => (t, pj)
  | fuel+1, t, pj =>
    if pj > pl ∧ vp < npVal v t (pj - 1) then
      npInsertLoop v vp pl fuel (t.setD pj (t.getD (pj - 1) 0)) (pj - 1)
    else (t, pj)

/-- The small-segment insertion sort of `aquicksort_` on `t[pl..pr]`: stable,
and the only code path for segments of at most 16 entries. -/
def npInsertionSortSeg (v : Array Int) (t : Array Nat) (pl pr : Nat) : Array Nat :=
  (List.range' (pl + 1) (pr - pl)).foldl (fun t pi =>
    let vi := t.getD pi 0
    let vp := v.getD vi 0
    let r := npInsertLoop v vp pl pi t pi
    r.1.setD r.2 vi) t

/-- Sift step of numpy `aheapsort_` (1-indexed inside `t[pl..]`:
`a[i] = t[pl + i - 1]`). -/
def npSift (v : Array Int) (pl n tmp : Nat) : Nat → Array Nat → Nat → Nat → Array Nat
  | 0, t, i, _ => t.setD (pl + i - 1) tmp
  | fuel+1, t, i, j =>
    if j ≤ n then
      let j := if j < n ∧ v.getD (t.getD (pl + j - 1) 0) 0 < v.getD (t.getD (pl + j) 0) 0
        then j + 1 else j
      if v.getD tmp 0 < v.getD (t.getD (pl + j - 1) 0) 0 then
        npSift v pl n tmp fuel (t.setD (pl + i - 1) (t.getD (pl + j - 1) 0)) j (2 * j)
      else t.setD (pl + i - 1) tmp
    else t.setD (pl + i - 1) tmp

/-- numpy `aheapsort_` on the segment `t[pl..pr]`: heapify then extract — the
introsort fallback once the shared depth budget is spent. -/
def npHeapSortSeg (v : Array Int) (t : Array Nat) (pl pr : Nat) : Array Nat :=
  let n := pr - pl + 1
  let t := (List.range (n / 2)).foldl (fun t k =>
    let l := n / 2 - k
    npSift v pl n (t.getD (pl + l - 1) 0) (n + 2) t l (2 * l)) t
  (List.range (n - 1)).foldl (fun t k =>
    let m := n - k
    let tmp := t.getD (pl + m - 1) 0
    let t := t.setD (pl + m - 1) (t.getD pl 0)
    npSift v pl (m - 1) tmp (n + 2) t 1 2) t

/-- Main recursion of numpy's `aquicksort_` introsort: a segment of more than
16 entries is partitioned while the shared depth budget `b` lasts (the C code
tests `depth_limit-- < 0` once per partition attempt and heapsorts the segment
when the budget has gone negative); as in the C control flow the smaller side
is processed first and the larger side — the one pushed on the stack —
afterwards, threading the budget through.  Segments of at most 16 entries get
the stable insertion sort.  `fuel` only justifies termination to Lean: each
recursive call works on a strictly shorter segment, so starting it at the
array size it is never exhausted. -/
def npQuickSortSeg (v : Array Int) : Nat → Array Nat → Int → Nat → Nat → Array Nat × Int
  | 0, t, b, _, _ => (t, b)
  | fuel+1, t, b, pl, pr =>
    if pr - pl > 15 then
      if b < 0 then (npHeapSortSeg v t pl pr, b - 1)
      else
        let r := npPartition v t pl pr
        let pi := r.2
        if pi - pl < pr - pi then
          let s := npQuickSortSeg v fuel r.1 (b - 1) pl (pi - 1)
          npQuickSortSeg v fuel s.1 s.2 (pi + 1) pr
        else
          let s := npQuickSortSeg v fuel r.1 (b - 1) (pi + 1) pr
          npQuickSortSeg v fuel s.1 s.2 pl (pi - 1)
    else (npInsertionSortSeg v t pl pr, b)

/-- numpy `argsort(kind='quicksort')` — the generic scalar introsort argsort
kernel `aquicksort_` with `SMALL_QUICKSORT = 15` and depth budget
`npy_get_msb(n) * 2` — applied to the value array `v`: returns the permutation
of `0..n-1` that orders `v` ascending.  It is the stable insertion sort for
`n ≤ 16` and unstable beyond (recent numpy may instead dispatch to vectorized
kernels, which are likewise unstable). -/
def npArgSortQuick (v : Array Int) : Array Nat :=
  let n := v.size
  (npQuickSortSeg v n ((List.range n).toArray) (Int.ofNat (npGetMsb n * 2)) 0 (n - 1)).1

/-- pandas `Series.sort_values(ascending=False)` exactly as the source runs it
(`nargsort` with numpy `kind='quicksort'`): reverse the values, run the numpy
introsort argsort, reverse the resulting indexer, and take.  Agrees with the
stable model `sortDescByCost` whenever the list has at most 16 entries; for
longer lists the introsort partition permutes equal-cost entries. -/
def np_sort_values_desc (l : List (String × Int)) : List (String × Int) :=
  let rev := l.reverse
  let v : Array Int := (rev.map (fun p => p.2)).toArray
  let s := npArgSortQuick v
  (s.toList.map (fun i => rev.getD i (("", 0)))).reverse

/-- One row of the input table after cost normalization (source line 50 turns
the `Monthy Cost` column into integers). -/
structure CostRecord where
  MeterCategory : String
  PricingModel : String
  Environment : String
  MonthyCost : Int
deriving DecidableEq

/-- One rendered flow line `source [cost] target`. -/
structure FlowEdge where
  source : String
  cost : Int
  target : String
deriving DecidableEq

/-- Hardcoded default label map (source lines 12-15). -/
def HARDCODED_OVERWRITE_MAP : List (String × String) :=
  [("Azure Database for PostgreSQL", "PostgreSQL"),
   ("Azure Cognitive Search", "Azure Search")]

/-- Function `get_label` (source lines 17-19): `overwrite_map.get(name, name)`. -/
def get_label (name : String) (overwrite_map : List (String × String)) : String :=
  match overwrite_map.find? (fun p => p.1 = name) with
  | some p => p.2
  | none => name

/-- Umbrella-category rewrite (source line 53): the two ETL source categories
are replaced by the literal `ETL Tools`. -/
def replaceCategory (c : String) : String :=
  if c = "Azure Data Factory v2" ∨ c = "Azure Synapse Analytics" then "ETL Tools" else c

/-- Applies the umbrella-category rewrite to every row (source line 53). -/
def preprocess (df : List CostRecord) : List CostRecord :=
  df.map (fun r => { r with MeterCategory := replaceCategory r.MeterCategory })

/-- Models `df.groupby(key)['Monthy Cost'].sum()`: ascending-sorted distinct keys,
each paired with the sum of the costs of its rows. -/
def groupbySum (key : CostRecord → String) (df : List CostRecord) : List (String × Int) :=
  (sortStr (uniqueFirst (df.map key))).map
    (fun k => (k, ((df.filter (fun r => key r = k)).map (fun r => r.MonthyCost)).sum))

/-- Categories having at least one `Reservation`-priced row, in first-appearance
order (source line 61). -/
def reservation_cats (df : List CostRecord) : List String :=
  uniqueFirst ((df.filter (fun r => r.PricingModel = "Reservation")).map
    (fun r => r.MeterCategory))

/-- Category selection (source lines 63-83).  `df` is the preprocessed table.
Python builds the final set as `list(set(mandatory) | set(fillers))`, whose
order is unspecified and which is only ever used for membership tests; since
the fillers are drawn from candidates excluding the mandatory names, the
concatenation below has exactly the same members. -/
def categories_to_keep (df : List CostRecord) (top_categories : Int) : List String :=
  let grouped_by_cat := groupbySum (fun r => r.MeterCategory) df
  let mandatory := reservation_cats df
  if (grouped_by_cat.length : Int) ≤ top_categories then
    grouped_by_cat.map (fun p => p.1)
  else
    let slots_for_specific := top_categories - 1
    if (mandatory.length : Int) ≥ slots_for_specific then
      mandatory
    else
      let slots_remaining := slots_for_specific - mandatory.length
      let candidates := sortDescByCost (grouped_by_cat.filter (fun p => ¬ p.1 ∈ mandatory))
      let fillers := (candidates.take slots_remaining.toNat).map (fun p => p.1)
      mandatory ++ fillers

/-- Function `apply_grouping` (source lines 87-90): each row keeps its category when it
was selected, otherwise it is folded into `Others`. -/
def MeterCategory_Grouped (keep : List String) (r : CostRecord) : String :=
  if r.MeterCategory ∈ keep then r.MeterCategory else "Others"

/-- Descending-cost order of grouped-category sums (source line 94). -/
def category_sort_list (df : List CostRecord) (keep : List String) : List (String × Int) :=
  sortDescByCost (groupbySum (MeterCategory_Grouped keep) df)

/-- Descending-cost order of environment sums (source line 95). -/
def environment_sort_list (df : List CostRecord) : List (String × Int) :=
  sortDescByCost (groupbySum (fun r => r.Environment) df)

/-- Fixed pricing-model iteration order (source line 96). -/
def pricing_order : List String := ["SavingsPlan", "Reservation", "OnDemand"]

/-- Lookup in a groupby result: `k in s.index` plus `s[k]` at once. -/
def lookupCost (l : List (String × Int)) (k : String) : Option Int :=
  (l.find? (fun p => p.1 = k)).map (fun p => p.2)

/-- Block 1 (source lines 103-111): pricing model → grouped category, emitting
only cells that exist in the per-model groupby and have cost `> 0`. -/
def block1 (df : List CostRecord) (keep : List String)
    (overwrite_map : List (String × String)) : List FlowEdge :=
  pricing_order.flatMap (fun model =>
    let model_df := df.filter (fun r => r.PricingModel = model)
    let model_cat_costs := groupbySum (MeterCategory_Grouped keep) model_df
    ((category_sort_list df keep).map (fun p => p.1)).filterMap (fun cat_name =>
      match lookupCost model_cat_costs cat_name with
      | some cost =>
        if cost > 0 then some ⟨model, cost, get_label cat_name overwrite_map⟩ else none
      | none => none))

/-- Block 2 (source lines 116-118): grouped category → `TotalMonthly`, one line
per entry of the category sort order (no zero filter in the source). -/
def block2 (df : List CostRecord) (keep : List String)
    (overwrite_map : List (String × String)) : List FlowEdge :=
  (category_sort_list df keep).map
    (fun p => ⟨get_label p.1 overwrite_map, p.2, "TotalMonthly"⟩)

/-- Block 3 (source lines 123-127): `TotalMonthly` → environment, one line per
entry of the environment sort order (no zero filter in the source). -/
def block3 (df : List CostRecord) (overwrite_map : List (String × String)) : List FlowEdge :=
  (environment_sort_list df).map
    (fun p => ⟨"TotalMonthly", p.2, get_label p.1 overwrite_map⟩)

/-- Renders one flow edge as a text line (the f-strings of lines 111/118/127). -/
def edgeLine (e : FlowEdge) : String :=
  e.source ++ " [" ++ toString e.cost ++ "] " ++ e.target

/-- Function `generate_sankey_data` (source lines 42-129) on a table whose costs are
already normalized: preprocess, select categories, emit the three blocks
separated by empty lines and join with newlines. -/
def generate_sankey_data (df0 : List CostRecord) (top_categories : Int)
    (overwrite_map : List (String × String)) : String :=
  let df := preprocess df0
  let keep := categories_to_keep df top_categories
  String.intercalate ("\n")
    ((block1 df keep overwrite_map).map edgeLine ++ [""] ++
     (block2 df keep overwrite_map).map edgeLine ++ [""] ++
     (block3 df overwrite_map).map edgeLine)

/-- All node names mentioned by a list of edges. -/
def nodeNames (es : List FlowEdge) : List String :=
  es.flatMap (fun e => [e.source, e.target])

/-- Total cost carried by a list of edges. -/
def costSum (es : List FlowEdge) : Int :=
  (es.map (fun e => e.cost)).sum

/-- Grand total of the normalized costs of a table. -/
def grand_total (df : List CostRecord) : Int :=
  (df.map (fun r => r.MonthyCost)).sum

/-- Convenience: the kept-category list computed by the full pipeline. -/
def keepOf (df0 : List CostRecord) (top_categories : Int) : List String :=
  categories_to_keep (preprocess df0) top_categories

/-- Convenience: Block 1 as computed by the full pipeline. -/
def block1Of (df0 : List CostRecord) (top_categories : Int)
    (overwrite_map : List (String × String)) : List FlowEdge :=
  block1 (preprocess df0) (keepOf df0 top_categories) overwrite_map

/-- Convenience: Block 2 as computed by the full pipeline. -/
def block2Of (df0 : List CostRecord) (top_categories : Int)
    (overwrite_map : List (String × String)) : List FlowEdge :=
  block2 (preprocess df0) (keepOf df0 top_categories) overwrite_map

/-- Convenience: Block 3 as computed by the full pipeline. -/
def block3Of (df0 : List CostRecord) (overwrite_map : List (String × String)) : List FlowEdge :=
  block3 (preprocess df0) overwrite_map

/-- Convenience: all node names of the emitted output. -/
def nodeNamesOf (df0 : List CostRecord) (top_categories : Int)
    (overwrite_map : List (String × String)) : List String :=
  nodeNames (block1Of df0 top_categories overwrite_map ++
    block2Of df0 top_categories overwrite_map ++ block3Of df0 overwrite_map)

/-- The ascending distinct key list of a groupby. -/
def groupKeys (key : CostRecord → String) (df : List CostRecord) : List String :=
  sortStr (uniqueFirst (df.map key))

/-- The summed cost of the rows having a given key. -/
def sumKey (key : CostRecord → String) (df : List CostRecord) (k : String) : Int :=
  ((df.filter (fun r => key r = k)).map (fun r => r.MonthyCost)).sum

/-- Strict descending order by cost with ties broken by name ascending
(code-point order): the deterministic order the emission loops follow. -/
def descByCostTieNameAsc (l : List (String × Int)) : Prop :=
  l.Pairwise (fun p q => q.2 < p.2 ∨ (q.2 = p.2 ∧ strLtB p.1 q.1 = true))

instance (l : List (String × Int)) : Decidable (descByCostTieNameAsc l) :=
  inferInstanceAs (Decidable (l.Pairwise
    (fun p q : String × Int => q.2 < p.2 ∨ (q.2 = p.2 ∧ strLtB p.1 q.1 = true))))

/-- Drops the thousands separators: `str.replace(',', '')`. -/
def stripCommas (s : String) : List Char := s.data.filter (fun c => ¬ c = ',')

/-- Consumes an optional leading sign, as Python `float` parsing does. -/
def parseSign : List Char → Bool × List Char
  | [] => (false, [])
  | c :: cs => if c = '-' then (true, cs) else if c = '+' then (false, cs) else (false, c :: cs)

/-- Splits at the first decimal point, if any. -/
def splitAtDot : List Char → List Char × Option (List Char)
  | [] => ([], none)
  | c :: cs =>
    if c = '.' then ([], some cs)
    else
      let p := splitAtDot cs
      (c :: p.1, p.2)

/-- Value of a digit string. -/
def digitsVal (l : List Char) : Nat := l.foldl (fun n c => 10 * n + (c.toNat - 48)) 0

/-- Parses a comma-stripped cost string into (negative?, numerator, fraction
digits), so that the parsed decimal value is `± numerator / 10 ^ digits`.
Returns `none` when Python `float(...)` would raise (the fatal
`MalformedCostError` path); exotic float syntax (exponents, `inf`, `nan`)
is outside the model. -/
def parseCostParts (s : String) : Option (Bool × Nat × Nat) :=
  let t := parseSign (stripCommas s)
  match splitAtDot t.2 with
  | (ip, none) =>
    if ip ≠ [] ∧ ip.all Char.isDigit then some (t.1, digitsVal ip, 0) else none
  | (ip, some fp) =>
    if (ip ≠ [] ∨ fp ≠ []) ∧ ip.all Char.isDigit ∧ fp.all Char.isDigit then
      some (t.1, digitsVal ip * 10 ^ fp.length + digitsVal fp, fp.length)
    else none

/-- Round-half-to-even of the fraction `n / d` (`0 < d`), on naturals: the
integer rounding `numpy.round` performs in `.round(0)` of source line 50. -/
def roundHalfToEvenNat (n d : Nat) : Nat :=
  let q := n / d
  let r := n % d
  if 2 * r < d then q
  else if d < 2 * r then q + 1
  else if q % 2 = 0 then q else q + 1

/-- The cost normalizer of source line 50:
`astype(str).str.replace(',','').astype(float).round(0).astype(int)`,
with the value of the rounded magnitude negated when the string carried a
minus sign (numpy rounding is symmetric around zero). -/
def normalizeCost (s : String) : Option Int :=
  match parseCostParts s with
  | none => none
  | some (neg, n, k) =>
    let m : Int := roundHalfToEvenNat n (10 ^ k)
    some (if neg then -m else m)

/-- Specification-side definition, following the words of spec §4.1: the
parsed decimal value of the cost string. -/
def costValue (neg : Bool) (n k : Nat) : ℚ :=
  (if neg then -1 else 1) * (n : ℚ) / ((10 : ℚ) ^ k)

/-- Specification-side definition, following the words of spec §4.1:
rounding to the nearest whole unit, ties to the even integer. -/
def roundHalfToEven (q : ℚ) : ℤ :=
  if Int.fract q < 1/2 then ⌊q⌋
  else if (1 : ℚ)/2 < Int.fract q then ⌊q⌋ + 1
  else if ⌊q⌋ % 2 = 0 then ⌊q⌋ else ⌊q⌋ + 1

/-- One raw row of the input CSV, the `Monthy Cost` column still a string. -/
structure RawCostRecord where
  MeterCategory : String
  PricingModel : String
  Environment : String
  MonthyCost : String
deriving DecidableEq

/-- Normalizes one raw row (source line 50); `none` is the fatal
`MalformedCostError` path. -/
def normalizeRecord (r : RawCostRecord) : Option CostRecord :=
  (normalizeCost r.MonthyCost).map
    (fun c => ⟨r.MeterCategory, r.PricingModel, r.Environment, c⟩)

/-- Function `generate_sankey_data` from the raw table: cost normalization (line 50)
followed by the rest of the pipeline. -/
def generate_sankey_data_raw (df : List RawCostRecord) (top_categories : Int)
    (overwrite_map : List (String × String)) : Option String :=
  (df.mapM normalizeRecord).map
    (fun df' => generate_sankey_data df' top_categories overwrite_map)

/-- Seventeen categories in ascending name order, all with equal cost: one
more than numpy's insertion-sort cutoff, so a tie scenario the introsort
partition scrambles. -/
def c6TieTable : List CostRecord :=
  (["c01", "c02", "c03", "c04", "c05", "c06", "c07", "c08", "c09", "c10",
    "c11", "c12", "c13", "c14", "c15", "c16", "c17"]).map
    (fun nm => ⟨nm, "OnDemand", "E", 1⟩)

/-- Validation of the embedding on the worked example of spec section 8:
categories A(500, OnDemand), B(300, Reservation), C(100, OnDemand) with cap 2
keep only B, fold A and C into an `Others` bucket of 600, and emit the blocks
in descending-cost order. -/
theorem generate_sankey_data_spec_example :
    generate_sankey_data
      [⟨"B", "Reservation", "Prod", 300⟩,
       ⟨"A", "OnDemand", "Prod", 500⟩,
       ⟨"C", "OnDemand", "Dev", 100⟩] 2 [] =
    "Reservation [300] B\nOnDemand [600] Others\n\nOthers [600] TotalMonthly\n" ++
      "B [300] TotalMonthly\n\nTotalMonthly [800] Prod\nTotalMonthly [100] Dev" := by decide

/-! ### Order facts about the code-point string comparison -/

theorem char_eq_of_toNat_eq {a b : Char} (h : a.toNat = b.toNat) : a = b :=
  Char.eq_of_val_eq (UInt32.ext h)

theorem ltChars_irrefl : ∀ l : List Char, ltChars l l = false
  | [] => rfl
  | a :: l => by simp [ltChars, ltChars_irrefl l]

theorem ltChars_asymm : ∀ {s t : List Char}, ltChars s t = true → ltChars t s = false
  | [], [], h => by simp [ltChars] at h
  | [], _ :: _, _ => rfl
  | _ :: _, [], h => by simp [ltChars] at h
  | a :: as, b :: bs, h => by
    simp only [ltChars] at h ⊢
    rcases Nat.lt_trichotomy a.toNat b.toNat with hab | hab | hab
    · simp [hab, Nat.lt_asymm hab]
    · rw [hab] at h ⊢
      simp only [Nat.lt_irrefl, if_false] at h ⊢
      exact ltChars_asymm h
    · simp [hab, Nat.lt_asymm hab] at h

theorem ltChars_eq_of_not_lt : ∀ {s t : List Char},
    ltChars s t = false → ltChars t s = false → s = t
  | [], [], _, _ => rfl
  | [], _ :: _, h, _ => by simp [ltChars] at h
  | _ :: _, [], _, h => by simp [ltChars] at h
  | a :: as, b :: bs, h₁, h₂ => by
    simp only [ltChars] at h₁ h₂
    rcases Nat.lt_trichotomy a.toNat b.toNat with hab | hab | hab
    · simp [hab] at h₁
    · have hab' : a = b := char_eq_of_toNat_eq hab
      subst hab'
      simp only [Nat.lt_irrefl, if_false] at h₁ h₂
      rw [ltChars_eq_of_not_lt h₁ h₂]
    · simp [hab, Nat.lt_asymm hab] at h₂

theorem ltChars_trans : ∀ {s t u : List Char},
    ltChars s t = true → ltChars t u = true → ltChars s u = true
  | [], [], _, h₁, _ => by simp [ltChars] at h₁
  | [], _ :: _, [], _, h₂ => by simp [ltChars] at h₂
  | [], _ :: _, _ :: _, _, _ => rfl
  | _ :: _, [], _, h₁, _ => by simp [ltChars] at h₁
  | _ :: _, _ :: _, [], _, h₂ => by simp [ltChars] at h₂
  | a :: as, b :: bs, c :: cs, h₁, h₂ => by
    simp only [ltChars] at h₁ h₂ ⊢
    rcases Nat.lt_trichotomy a.toNat b.toNat with hab | hab | hab
    · rcases Nat.lt_trichotomy b.toNat c.toNat with hbc | hbc | hbc
      · simp [Nat.lt_trans hab hbc]
      · rw [hbc] at hab
        simp [hab]
      · simp [hbc, Nat.lt_asymm hbc] at h₂
    · rw [hab]
      rw [hab] at h₁
      simp only [Nat.lt_irrefl, if_false] at h₁
      rcases Nat.lt_trichotomy b.toNat c.toNat with hbc | hbc | hbc
      · simp [hbc]
      · rw [hbc]
        rw [hbc] at h₂
        simp only [Nat.lt_irrefl, if_false] at h₂ ⊢
        exact ltChars_trans h₁ h₂
      · simp [hbc, Nat.lt_asymm hbc] at h₂
    · simp [hab, Nat.lt_asymm hab] at h₁

theorem string_eq_of_data_eq {s t : String} (h : s.data = t.data) : s = t := by
  cases s
  cases t
  exact congrArg String.mk h

theorem strLeB_refl (s : String) : strLeB s s = true := by
  simp [strLeB, strLtB, ltChars_irrefl]

theorem strLeB_total (s t : String) : strLeB s t = true ∨ strLeB t s = true := by
  by_cases h : ltChars t.data s.data = true
  · right
    simp [strLeB, strLtB, ltChars_asymm h]
  · left
    simp only [strLeB, strLtB, Bool.not_eq_true', Bool.not_eq_true] at h ⊢
    exact h

theorem strLeB_trans {s t u : String} (h₁ : strLeB s t = true) (h₂ : strLeB t u = true) :
    strLeB s u = true := by
  simp only [strLeB, strLtB, Bool.not_eq_true'] at h₁ h₂ ⊢
  by_contra hc
  rw [Bool.not_eq_false] at hc
  by_cases htu : ltChars t.data u.data = true
  · rw [ltChars_trans htu hc] at h₁
    exact Bool.true_eq_false.mp h₁
  · rw [Bool.not_eq_true] at htu
    have : t.data = u.data := ltChars_eq_of_not_lt htu h₂
    rw [← this] at hc
    rw [hc] at h₁
    exact Bool.true_eq_false.mp h₁

theorem strLeB_antisymm {s t : String} (h₁ : strLeB s t = true) (h₂ : strLeB t s = true) :
    s = t := by
  simp only [strLeB, strLtB, Bool.not_eq_true'] at h₁ h₂
  exact string_eq_of_data_eq (ltChars_eq_of_not_lt h₂ h₁)

theorem strLtB_iff {s t : String} : strLtB s t = true ↔ strLeB s t = true ∧ s ≠ t := by
  constructor
  · intro h
    refine ⟨by simp [strLeB, strLtB, ltChars_asymm h], ?_⟩
    rintro rfl
    rw [strLtB, ltChars_irrefl] at h
    exact Bool.false_ne_true h
  · rintro ⟨hle, hne⟩
    simp only [strLeB, strLtB, Bool.not_eq_true'] at hle
    by_contra hc
    rw [Bool.not_eq_true] at hc
    exact hne (string_eq_of_data_eq (ltChars_eq_of_not_lt hc hle))

/-! ### Deduplication and key-sorting facts -/

theorem mem_uniqueFirstAux : ∀ (l seen : List String) (x : String),
    x ∈ uniqueFirstAux seen l ↔ x ∈ l ∧ x ∉ seen
  | [], seen, x => by simp [uniqueFirstAux]
  | a :: t, seen, x => by
    by_cases ha : a ∈ seen
    · rw [uniqueFirstAux, if_pos ha, mem_uniqueFirstAux t seen x]
      constructor
      · rintro ⟨h1, h2⟩
        exact ⟨List.mem_cons_of_mem a h1, h2⟩
      · rintro ⟨h1, h2⟩
        rcases List.mem_cons.mp h1 with rfl | h1
        · exact absurd ha h2
        · exact ⟨h1, h2⟩
    · rw [uniqueFirstAux, if_neg ha]
      rw [List.mem_cons, mem_uniqueFirstAux t (a :: seen) x]
      constructor
      · rintro (rfl | ⟨h1, h2⟩)
        · exact ⟨List.mem_cons_self x t, ha⟩
        · exact ⟨List.mem_cons_of_mem a h1, fun hx => h2 (List.mem_cons_of_mem a hx)⟩
      · rintro ⟨h1, h2⟩
        rcases List.mem_cons.mp h1 with rfl | h1
        · exact Or.inl rfl
        · by_cases hxa : x = a
          · exact Or.inl hxa
          · refine Or.inr ⟨h1, fun hx => ?_⟩
            rcases List.mem_cons.mp hx with h | h
            · exact hxa h
            · exact h2 h

theorem nodup_uniqueFirstAux : ∀ (l seen : List String), (uniqueFirstAux seen l).Nodup
  | [], _ => List.nodup_nil
  | a :: t, seen => by
    by_cases ha : a ∈ seen
    · rw [uniqueFirstAux, if_pos ha]
      exact nodup_uniqueFirstAux t seen
    · rw [uniqueFirstAux, if_neg ha]
      refine List.nodup_cons.mpr ⟨?_, nodup_uniqueFirstAux t (a :: seen)⟩
      intro hmem
      exact ((mem_uniqueFirstAux t (a :: seen) a).mp hmem).2 (List.mem_cons_self a seen)

theorem mem_uniqueFirst {l : List String} {x : String} : x ∈ uniqueFirst l ↔ x ∈ l := by
  rw [uniqueFirst, mem_uniqueFirstAux]
  simp

theorem nodup_uniqueFirst (l : List String) : (uniqueFirst l).Nodup :=
  nodup_uniqueFirstAux l []

theorem sortStr_perm (l : List String) : (sortStr l).Perm l :=
  List.perm_insertionSort _ l

theorem mem_sortStr {l : List String} {x : String} : x ∈ sortStr l ↔ x ∈ l :=
  (sortStr_perm l).mem_iff

theorem nodup_sortStr {l : List String} (h : l.Nodup) : (sortStr l).Nodup :=
  (sortStr_perm l).nodup_iff.mpr h

theorem sorted_sortStr (l : List String) :
    (sortStr l).Pairwise (fun a b => strLeB a b = true) := by
  haveI : IsTotal String (fun a b => strLeB a b = true) := ⟨strLeB_total⟩
  haveI : IsTrans String (fun a b => strLeB a b = true) := ⟨fun _ _ _ => strLeB_trans⟩
  exact List.sorted_insertionSort _ l

/-! ### Groupby aggregation facts -/

theorem groupbySum_eq (key : CostRecord → String) (df : List CostRecord) :
    groupbySum key df = (groupKeys key df).map (fun k => (k, sumKey key df k)) := rfl

theorem mem_groupKeys {key : CostRecord → String} {df : List CostRecord} {k : String} :
    k ∈ groupKeys key df ↔ k ∈ df.map key :=
  mem_sortStr.trans mem_uniqueFirst

theorem nodup_groupKeys (key : CostRecord → String) (df : List CostRecord) :
    (groupKeys key df).Nodup :=
  nodup_sortStr (nodup_uniqueFirst _)

theorem fst_groupbySum (key : CostRecord → String) (df : List CostRecord) :
    (groupbySum key df).map (fun p => p.1) = groupKeys key df := by
  rw [groupbySum_eq, List.map_map]
  exact List.map_id _

theorem sum_map_if_single {α : Type} [DecidableEq α] (x : α) (c : Int) (g : α → Int) :
    ∀ ks : List α, ks.Nodup → x ∈ ks →
      (ks.map (fun k => if x = k then c + g k else g k)).sum = c + (ks.map g).sum
  | [], _, hx => absurd hx (List.not_mem_nil x)
  | k :: ks, hnd, hx => by
    rcases List.mem_cons.mp hx with rfl | hx'
    · have hrest : ∀ k' ∈ ks, (if x = k' then c + g k' else g k') = g k' := by
        intro k' hk'
        rw [if_neg]
        intro h
        exact (List.nodup_cons.mp hnd).1 (h ▸ hk')
      simp only [List.map_cons, List.sum_cons, List.map_congr_left hrest, if_true,
        eq_self_iff_true]
      ring
    · have hxk : ¬ x = k := by
        intro h
        exact (List.nodup_cons.mp hnd).1 (h ▸ hx')
      simp only [List.map_cons, List.sum_cons, if_neg hxk,
        sum_map_if_single x c g ks (List.nodup_cons.mp hnd).2 hx']
      ring

theorem sum_groups {α : Type} (key : α → String) (f : α → Int) :
    ∀ (l : List α) (ks : List String), ks.Nodup → (∀ a ∈ l, key a ∈ ks) →
      (ks.map (fun k => ((l.filter (fun a => key a = k)).map f).sum)).sum = (l.map f).sum
  | [], ks, _, _ => by simp
  | a :: l, ks, hnd, hcov => by
    have hpt : ∀ k ∈ ks,
        (((a :: l).filter (fun a' => key a' = k)).map f).sum =
          (if key a = k then f a + ((l.filter (fun a' => key a' = k)).map f).sum
           else ((l.filter (fun a' => key a' = k)).map f).sum) := by
      intro k _
      by_cases h : key a = k
      · simp [List.filter_cons, h]
      · simp [List.filter_cons, h]
    rw [List.map_congr_left hpt, sum_map_if_single (key a) (f a) _ ks hnd
      (hcov a (List.mem_cons_self a l)),
      sum_groups key f l ks hnd (fun a' ha' => hcov a' (List.mem_cons_of_mem a ha'))]
    simp

theorem snd_sum_groupbySum (key : CostRecord → String) (df : List CostRecord) :
    ((groupbySum key df).map (fun p => p.2)).sum = grand_total df := by
  rw [groupbySum_eq, List.map_map]
  exact sum_groups key (fun r => r.MonthyCost) df (groupKeys key df)
    (nodup_groupKeys key df)
    (fun r hr => mem_groupKeys.mpr (List.mem_map_of_mem key hr))

theorem find?_keyed (s : String → Int) :
    ∀ (ks : List String) (k : String),
      (ks.map (fun q => (q, s q))).find? (fun p => p.1 = k) =
        if k ∈ ks then some (k, s k) else none
  | [], k => by simp
  | q :: ks, k => by
    by_cases h : q = k
    · subst h
      simp [List.find?]
    · rw [List.map_cons]
      rw [List.find?]
      have : (decide ((q, s q).1 = k)) = false := by
        simp [h]
      rw [this, find?_keyed s ks k]
      by_cases hk : k ∈ ks
      · simp [hk, List.mem_cons, Ne.symm h]
      · simp [hk, List.mem_cons, Ne.symm h]

theorem lookupCost_groupbySum (key : CostRecord → String) (df : List CostRecord) (k : String) :
    lookupCost (groupbySum key df) k =
      if k ∈ groupKeys key df then some (sumKey key df k) else none := by
  rw [groupbySum_eq, lookupCost, find?_keyed (sumKey key df) (groupKeys key df) k]
  by_cases hk : k ∈ groupKeys key df
  · simp [hk]
  · simp [hk]

theorem sumKey_eq_zero_of_not_mem {key : CostRecord → String} {df : List CostRecord}
    {k : String} (h : k ∉ df.map key) : sumKey key df k = 0 := by
  have : df.filter (fun r => key r = k) = [] := by
    rw [List.filter_eq_nil_iff]
    intro r hr hk
    rw [decide_eq_true_iff] at hk
    exact h (hk ▸ List.mem_map_of_mem key hr)
  rw [sumKey, this]
  rfl

theorem sumKey_nonneg {key : CostRecord → String} {df : List CostRecord} {k : String}
    (h : ∀ r ∈ df, 0 ≤ r.MonthyCost) : 0 ≤ sumKey key df k := by
  refine List.sum_nonneg ?_
  intro x hx
  rcases List.mem_map.mp hx with ⟨r, hr, rfl⟩
  exact h r (List.mem_of_mem_filter hr)

/-! ### Facts about the descending sort -/

theorem sortDescByCost_perm (l : List (String × Int)) : (sortDescByCost l).Perm l :=
  (List.reverse_perm _).trans ((List.perm_insertionSort _ _).trans (List.reverse_perm l))

theorem costSum_append (a b : List FlowEdge) : costSum (a ++ b) = costSum a + costSum b := by
  simp [costSum]

theorem costSum_flatMap {β : Type} (f : β → List FlowEdge) :
    ∀ l : List β, costSum (l.flatMap f) = (l.map (fun b => costSum (f b))).sum
  | [] => rfl
  | a :: l => by
    rw [List.flatMap_cons, costSum_append, List.map_cons, List.sum_cons,
      costSum_flatMap f l]

theorem costSum_filterMap (F : String → Option FlowEdge) (G : String → Int) :
    ∀ ks : List String,
      (∀ c ∈ ks, (∃ e, F c = some e ∧ e.cost = G c) ∨ (F c = none ∧ G c = 0)) →
      costSum (ks.filterMap F) = (ks.map G).sum
  | [], _ => rfl
  | c :: ks, h => by
    have tail := costSum_filterMap F G ks (fun c' hc' => h c' (List.mem_cons_of_mem c hc'))
    rcases h c (List.mem_cons_self c ks) with ⟨e, he, hc⟩ | ⟨he, hc⟩
    · rw [List.filterMap_cons_some he, List.map_cons, List.sum_cons, ← hc, ← tail]
      simp [costSum]
    · rw [List.filterMap_cons_none he, List.map_cons, List.sum_cons, hc, tail]
      ring

/-! ### Conservation of cost across the three blocks -/

theorem grand_total_preprocess (df : List CostRecord) :
    grand_total (preprocess df) = grand_total df := by
  rw [grand_total, preprocess, List.map_map]
  rfl

theorem costSum_block2 (df : List CostRecord) (keep : List String)
    (m : List (String × String)) : costSum (block2 df keep m) = grand_total df := by
  rw [block2, costSum, List.map_map]
  have h1 : ((category_sort_list df keep).map (fun p => p.2)).sum =
      ((groupbySum (MeterCategory_Grouped keep) df).map (fun p => p.2)).sum :=
    ((sortDescByCost_perm _).map _).sum_eq
  exact h1.trans (snd_sum_groupbySum _ df)

theorem costSum_block3 (df : List CostRecord) (m : List (String × String)) :
    costSum (block3 df m) = grand_total df := by
  rw [block3, costSum, List.map_map]
  have h1 : ((environment_sort_list df).map (fun p => p.2)).sum =
      ((groupbySum (fun r => r.Environment) df).map (fun p => p.2)).sum :=
    ((sortDescByCost_perm _).map _).sum_eq
  exact h1.trans (snd_sum_groupbySum _ df)

theorem catKeys_perm (df : List CostRecord) (keep : List String) :
    ((category_sort_list df keep).map (fun p => p.1)).Perm
      (groupKeys (MeterCategory_Grouped keep) df) := by
  have h := (sortDescByCost_perm (groupbySum (MeterCategory_Grouped keep) df)).map
    (fun p => p.1)
  rwa [fst_groupbySum] at h

theorem catKeys_nodup (df : List CostRecord) (keep : List String) :
    ((category_sort_list df keep).map (fun p => p.1)).Nodup :=
  (catKeys_perm df keep).nodup_iff.mpr (nodup_groupKeys _ _)

theorem mem_catKeys {df : List CostRecord} {keep : List String} {k : String} :
    k ∈ (category_sort_list df keep).map (fun p => p.1) ↔
      k ∈ df.map (MeterCategory_Grouped keep) :=
  (catKeys_perm df keep).mem_iff.trans mem_groupKeys

theorem costSum_block1_model (df : List CostRecord) (keep : List String)
    (m : List (String × String)) (model : String)
    (hnn : ∀ r ∈ df, 0 ≤ r.MonthyCost) :
    costSum (((category_sort_list df keep).map (fun p => p.1)).filterMap (fun cat_name =>
      match lookupCost (groupbySum (MeterCategory_Grouped keep)
          (df.filter (fun r => r.PricingModel = model))) cat_name with
      | some cost => if cost > 0 then some ⟨model, cost, get_label cat_name m⟩ else none
      | none => none)) =
    ((df.filter (fun r => r.PricingModel = model)).map (fun r => r.MonthyCost)).sum := by
  set model_df := df.filter (fun r => r.PricingModel = model) with hmdf
  have hnn' : ∀ r ∈ model_df, 0 ≤ r.MonthyCost := by
    intro r hr
    exact hnn r (List.mem_of_mem_filter hr)
  rw [costSum_filterMap _ (fun c => sumKey (MeterCategory_Grouped keep) model_df c) _ ?_]
  · exact sum_groups (MeterCategory_Grouped keep) (fun r => r.MonthyCost) model_df
      ((category_sort_list df keep).map (fun p => p.1)) (catKeys_nodup df keep)
      (fun r hr => mem_catKeys.mpr
        (List.mem_map_of_mem (MeterCategory_Grouped keep) (List.mem_of_mem_filter hr)))
  · intro c _
    by_cases hin : c ∈ groupKeys (MeterCategory_Grouped keep) model_df
    · by_cases hpos : sumKey (MeterCategory_Grouped keep) model_df c > 0
      · left
        refine ⟨⟨model, sumKey (MeterCategory_Grouped keep) model_df c, get_label c m⟩, ?_, rfl⟩
        rw [lookupCost_groupbySum, if_pos hin]
        simp [hpos]
      · right
        constructor
        · rw [lookupCost_groupbySum, if_pos hin]
          simp [hpos]
        · exact le_antisymm (not_lt.mp hpos) (sumKey_nonneg hnn')
    · right
      constructor
      · rw [lookupCost_groupbySum, if_neg hin]
      · exact sumKey_eq_zero_of_not_mem (fun hc => hin (mem_groupKeys.mpr hc))

theorem costSum_block1 (df : List CostRecord) (keep : List String)
    (m : List (String × String))
    (hmodels : ∀ r ∈ df, r.PricingModel ∈ pricing_order)
    (hnn : ∀ r ∈ df, 0 ≤ r.MonthyCost) :
    costSum (block1 df keep m) = grand_total df := by
  rw [block1, costSum_flatMap]
  have hpt : ∀ model ∈ pricing_order,
      costSum (((category_sort_list df keep).map (fun p => p.1)).filterMap (fun cat_name =>
        match lookupCost (groupbySum (MeterCategory_Grouped keep)
            (df.filter (fun r => r.PricingModel = model))) cat_name with
        | some cost => if cost > 0 then some ⟨model, cost, get_label cat_name m⟩ else none
        | none => none)) =
      ((df.filter (fun r => r.PricingModel = model)).map (fun r => r.MonthyCost)).sum := by
    intro model _
    exact costSum_block1_model df keep m model hnn
  rw [List.map_congr_left hpt]
  exact sum_groups (fun r => r.PricingModel) (fun r => r.MonthyCost) df pricing_order
    (by decide) hmodels

/-! ### Category selection facts -/

theorem mem_reservation_cats {df : List CostRecord} {c : String} :
    c ∈ reservation_cats df ↔
      ∃ r ∈ df, r.PricingModel = "Reservation" ∧ r.MeterCategory = c := by
  rw [reservation_cats, mem_uniqueFirst]
  constructor
  · intro h
    rcases List.mem_map.mp h with ⟨r, hr, rfl⟩
    rcases List.mem_filter.mp hr with ⟨hrdf, hp⟩
    exact ⟨r, hrdf, by simpa using hp, rfl⟩
  · rintro ⟨r, hrdf, hp, rfl⟩
    exact List.mem_map_of_mem _ (List.mem_filter.mpr ⟨hrdf, by simpa using hp⟩)

theorem nodup_reservation_cats (df : List CostRecord) : (reservation_cats df).Nodup :=
  nodup_uniqueFirst _

theorem reservation_cats_subset_keys (df : List CostRecord) :
    ∀ c ∈ reservation_cats df, c ∈ groupKeys (fun r => r.MeterCategory) df := by
  intro c hc
  rcases mem_reservation_cats.mp hc with ⟨r, hr, _, rfl⟩
  exact mem_groupKeys.mpr (List.mem_map_of_mem _ hr)

theorem length_groupbySum (key : CostRecord → String) (df : List CostRecord) :
    (groupbySum key df).length = (groupKeys key df).length := by
  rw [groupbySum_eq, List.length_map]

theorem categories_to_keep_of_le {df : List CostRecord} {t : Int}
    (h : ((groupbySum (fun r => r.MeterCategory) df).length : Int) ≤ t) :
    categories_to_keep df t = groupKeys (fun r => r.MeterCategory) df := by
  simp only [categories_to_keep]
  rw [if_pos h, fst_groupbySum]

theorem categories_to_keep_of_ge {df : List CostRecord} {t : Int}
    (h1 : ¬ ((groupbySum (fun r => r.MeterCategory) df).length : Int) ≤ t)
    (h2 : ((reservation_cats df).length : Int) ≥ t - 1) :
    categories_to_keep df t = reservation_cats df := by
  simp only [categories_to_keep]
  rw [if_neg h1, if_pos h2]

theorem categories_to_keep_of_lt {df : List CostRecord} {t : Int}
    (h1 : ¬ ((groupbySum (fun r => r.MeterCategory) df).length : Int) ≤ t)
    (h2 : ¬ ((reservation_cats df).length : Int) ≥ t - 1) :
    categories_to_keep df t = reservation_cats df ++
      ((sortDescByCost ((groupbySum (fun r => r.MeterCategory) df).filter
          (fun p => ¬ p.1 ∈ reservation_cats df))).take
        (t - 1 - (reservation_cats df).length).toNat).map (fun p => p.1) := by
  simp only [categories_to_keep]
  rw [if_neg h1, if_neg h2]

theorem length_filter_add_length_filter_not {α : Type} (p : α → Bool) (l : List α) :
    (l.filter p).length + (l.filter (fun a => !(p a))).length = l.length := by
  induction l with
  | nil => rfl
  | cons a t ih =>
    by_cases h : p a = true
    · simp [List.filter_cons, h]
      omega
    · rw [Bool.not_eq_true] at h
      simp [List.filter_cons, h]
      omega

theorem candidateKeys_eq (df : List CostRecord) :
    ((groupbySum (fun r => r.MeterCategory) df).filter
        (fun p => ¬ p.1 ∈ reservation_cats df)).map (fun p => p.1) =
      (groupKeys (fun r => r.MeterCategory) df).filter
        (fun k => ¬ k ∈ reservation_cats df) := by
  rw [← fst_groupbySum]
  exact (@List.filter_map (String × Int) String
    (fun k => decide (¬ k ∈ reservation_cats df)) (fun p => p.1)
    (groupbySum (fun r => r.MeterCategory) df)).symm

theorem mem_keys_record {key : CostRecord → String} {df : List CostRecord} {k : String}
    (h : k ∈ groupKeys key df) : ∃ r ∈ df, key r = k := by
  rcases List.mem_map.mp (mem_groupKeys.mp h) with ⟨r, hr, rfl⟩
  exact ⟨r, hr, rfl⟩

theorem filter_mand_perm (df : List CostRecord) :
    ((groupKeys (fun r => r.MeterCategory) df).filter
      (fun k => k ∈ reservation_cats df)).Perm (reservation_cats df) := by
  refine List.Subperm.antisymm ?_ ?_
  · refine List.subperm_of_subset ?_ ?_
    · exact (nodup_groupKeys _ _).sublist (List.filter_sublist _)
    · intro k hk
      have := (List.mem_filter.mp hk).2
      simpa using this
  · refine List.subperm_of_subset (nodup_reservation_cats df) ?_
    intro k hk
    refine List.mem_filter.mpr ⟨reservation_cats_subset_keys df k hk, by simpa using hk⟩

theorem length_candidateKeys (df : List CostRecord) :
    ((groupKeys (fun r => r.MeterCategory) df).filter
        (fun k => ¬ k ∈ reservation_cats df)).length =
      (groupKeys (fun r => r.MeterCategory) df).length - (reservation_cats df).length := by
  have hsplit := length_filter_add_length_filter_not
    (fun k => decide (k ∈ reservation_cats df)) (groupKeys (fun r => r.MeterCategory) df)
  have hperm := (filter_mand_perm df).length_eq
  have hnot : ((groupKeys (fun r => r.MeterCategory) df).filter
      (fun k => ¬ k ∈ reservation_cats df)) =
      ((groupKeys (fun r => r.MeterCategory) df).filter
        (fun k => !(decide (k ∈ reservation_cats df)))) := by
    apply List.filter_congr
    intro k _
    simp
  rw [hnot]
  omega

theorem keep_spec_of_lt {df : List CostRecord} {t : Int}
    (h1 : ¬ ((groupbySum (fun r => r.MeterCategory) df).length : Int) ≤ t)
    (h2 : ¬ ((reservation_cats df).length : Int) ≥ t - 1) :
    ((categories_to_keep df t).length : Int) = t - 1 ∧ (categories_to_keep df t).Nodup ∧
      ∀ c ∈ reservation_cats df, c ∈ categories_to_keep df t := by
  rw [categories_to_keep_of_lt h1 h2]
  set mand := reservation_cats df with hmand
  set cands := sortDescByCost ((groupbySum (fun r => r.MeterCategory) df).filter
      (fun p => ¬ p.1 ∈ mand)) with hcands
  set n := (t - 1 - (mand.length : Int)).toNat with hn
  have hkeyslen : (groupbySum (fun r => r.MeterCategory) df).length =
      (groupKeys (fun r => r.MeterCategory) df).length := length_groupbySum _ _
  have hfstperm : (cands.map (fun p => p.1)).Perm
      ((groupKeys (fun r => r.MeterCategory) df).filter (fun k => ¬ k ∈ mand)) := by
    have hperm := (sortDescByCost_perm ((groupbySum (fun r => r.MeterCategory) df).filter
      (fun p => ¬ p.1 ∈ mand))).map (fun p : String × Int => p.1)
    rw [candidateKeys_eq] at hperm
    exact hperm
  have hclen : cands.length =
      (groupKeys (fun r => r.MeterCategory) df).length - mand.length := by
    have h3 : cands.length = (cands.map (fun p => p.1)).length := (List.length_map _ _).symm
    rw [h3, hfstperm.length_eq, length_candidateKeys]
  have hmlt : ((mand.length : Nat) : Int) < t - 1 := not_le.mp h2
  have htlt : t < ((groupKeys (fun r => r.MeterCategory) df).length : Int) := by
    rw [hkeyslen] at h1
    exact not_le.mp h1
  have hnc : n ≤ cands.length := by
    rw [hclen]
    omega
  have hfl : (((cands.take n).map (fun p => p.1)).length : Int) =
      t - 1 - (mand.length : Int) := by
    rw [List.length_map, List.length_take, min_eq_left hnc]
    omega
  refine ⟨?_, ?_, ?_⟩
  · rw [List.length_append]
    push_cast
    push_cast at hfl
    omega
  · refine List.nodup_append.mpr ⟨nodup_reservation_cats df, ?_, ?_⟩
    · have hsub : ((cands.take n).map (fun p => p.1)).Sublist (cands.map (fun p => p.1)) :=
        (List.take_sublist n cands).map _
      have hnd : (cands.map (fun p => p.1)).Nodup :=
        hfstperm.nodup_iff.mpr ((nodup_groupKeys _ _).sublist (List.filter_sublist _))
      exact hnd.sublist hsub
    · intro a ha hafil
      have hmem : a ∈ cands.map (fun p => p.1) :=
        ((List.take_sublist n cands).map (fun p => p.1)).mem hafil
      have := (List.mem_filter.mp (hfstperm.mem_iff.mp hmem)).2
      rw [decide_eq_true_iff] at this
      exact this ha
  · intro c hc
    exact List.mem_append_left _ hc

/-! ### Grouped-key facts -/

theorem groupedKeys_subset (df : List CostRecord) (keep : List String) :
    ∀ k ∈ groupKeys (MeterCategory_Grouped keep) df, k = "Others" ∨ k ∈ keep := by
  intro k hk
  rcases List.mem_map.mp (mem_groupKeys.mp hk) with ⟨r, hr, rfl⟩
  by_cases h : r.MeterCategory ∈ keep
  · rw [MeterCategory_Grouped, if_pos h]
    exact Or.inr h
  · rw [MeterCategory_Grouped, if_neg h]
    exact Or.inl rfl

theorem length_groupedKeys_le (df : List CostRecord) (keep : List String) :
    (groupKeys (MeterCategory_Grouped keep) df).length ≤ keep.length + 1 := by
  have hsub : groupKeys (MeterCategory_Grouped keep) df ⊆ ("Others" :: keep) := by
    intro k hk
    rcases groupedKeys_subset df keep k hk with h | h
    · exact h ▸ List.mem_cons_self _ _
    · exact List.mem_cons_of_mem _ h
  have := (List.subperm_of_subset (nodup_groupKeys _ _) hsub).length_le
  simpa using this

theorem others_mem_groupedKeys {df : List CostRecord} {keep : List String}
    (r : CostRecord) (hr : r ∈ df) (h : r.MeterCategory ∉ keep) :
    ("Others" : String) ∈ groupKeys (MeterCategory_Grouped keep) df := by
  apply mem_groupKeys.mpr
  refine List.mem_map.mpr ⟨r, hr, ?_⟩
  rw [MeterCategory_Grouped, if_neg h]

theorem exists_key_not_kept {df : List CostRecord} {t : Int}
    (h : ((categories_to_keep df t).length : Int) <
      ((groupKeys (fun r => r.MeterCategory) df).length : Int)) :
    ∃ k ∈ groupKeys (fun r => r.MeterCategory) df, k ∉ categories_to_keep df t := by
  by_contra hc
  push_neg at hc
  have := (List.subperm_of_subset (nodup_groupKeys _ _) hc).length_le
  omega

theorem grouped_eq_self_of_keep_all {df : List CostRecord} {t : Int}
    (h : ((groupbySum (fun r => r.MeterCategory) df).length : Int) ≤ t) :
    ∀ r ∈ df, MeterCategory_Grouped (categories_to_keep df t) r = r.MeterCategory := by
  intro r hr
  rw [categories_to_keep_of_le h, MeterCategory_Grouped,
    if_pos (mem_groupKeys.mpr (List.mem_map_of_mem _ hr))]

/-! ### Tie-break order of the descending sorts -/

theorem orderedInsert_lexAsc (a : String × Int) :
    ∀ s : List (String × Int),
      s.Pairwise (fun p q => p.2 < q.2 ∨ (p.2 = q.2 ∧ strLtB q.1 p.1 = true)) →
      (∀ b ∈ s, strLtB b.1 a.1 = true) →
      (s.orderedInsert (fun p q => p.2 ≤ q.2) a).Pairwise
        (fun p q => p.2 < q.2 ∨ (p.2 = q.2 ∧ strLtB q.1 p.1 = true))
  | [], _, _ => List.pairwise_singleton _ a
  | b :: s, hs, ha => by
    rw [List.orderedInsert]
    by_cases h : a.2 ≤ b.2
    · rw [if_pos h]
      refine List.Pairwise.cons ?_ hs
      intro c hc
      have hcost : a.2 ≤ c.2 := by
        rcases List.mem_cons.mp hc with rfl | hc'
        · exact h
        · have := (List.pairwise_cons.mp hs).1 c hc'
          rcases this with h' | ⟨h', _⟩
          · exact le_trans h (le_of_lt h')
          · exact le_trans h (le_of_eq h')
      rcases lt_or_eq_of_le hcost with h' | h'
      · exact Or.inl h'
      · exact Or.inr ⟨h', ha c hc⟩
    · rw [if_neg h]
      refine List.Pairwise.cons ?_ (orderedInsert_lexAsc a s (List.pairwise_cons.mp hs).2
        (fun c hc => ha c (List.mem_cons_of_mem b hc)))
      intro c hc
      rcases (List.mem_orderedInsert _).mp hc with rfl | hc'
      · exact Or.inl (not_le.mp h)
      · exact (List.pairwise_cons.mp hs).1 c hc'

theorem insertionSort_lexAsc :
    ∀ l : List (String × Int),
      l.Pairwise (fun p q => strLtB q.1 p.1 = true) →
      (l.insertionSort (fun p q => p.2 ≤ q.2)).Pairwise
        (fun p q => p.2 < q.2 ∨ (p.2 = q.2 ∧ strLtB q.1 p.1 = true))
  | [], _ => List.Pairwise.nil
  | a :: l, hl => by
    rw [List.insertionSort]
    refine orderedInsert_lexAsc a _ (insertionSort_lexAsc l (List.pairwise_cons.mp hl).2) ?_
    intro b hb
    exact (List.pairwise_cons.mp hl).1 b ((List.mem_insertionSort _).mp hb)

theorem sortDescByCost_tie_name_asc (l : List (String × Int))
    (hl : l.Pairwise (fun p q => strLtB p.1 q.1 = true)) :
    descByCostTieNameAsc (sortDescByCost l) := by
  rw [sortDescByCost, descByCostTieNameAsc]
  rw [List.pairwise_reverse]
  exact insertionSort_lexAsc l.reverse (List.pairwise_reverse.mpr hl)

theorem groupbySum_names_ascending (key : CostRecord → String) (df : List CostRecord) :
    (groupbySum key df).Pairwise (fun p q => strLtB p.1 q.1 = true) := by
  rw [groupbySum_eq, List.pairwise_map]
  have h := (sorted_sortStr (uniqueFirst (df.map key))).and
    (nodup_groupKeys key df : (groupKeys key df).Pairwise (· ≠ ·))
  exact h.imp (fun hab => strLtB_iff.mpr hab)

theorem category_sort_list_tie_name_asc (df : List CostRecord) (keep : List String) :
    descByCostTieNameAsc (category_sort_list df keep) :=
  sortDescByCost_tie_name_asc _ (groupbySum_names_ascending _ df)

theorem environment_sort_list_tie_name_asc (df : List CostRecord) :
    descByCostTieNameAsc (environment_sort_list df) :=
  sortDescByCost_tie_name_asc _ (groupbySum_names_ascending _ df)

theorem candidates_tie_name_asc (df : List CostRecord) (mand : List String) :
    descByCostTieNameAsc (sortDescByCost
      ((groupbySum (fun r => r.MeterCategory) df).filter (fun p => ¬ p.1 ∈ mand))) :=
  sortDescByCost_tie_name_asc _
    ((groupbySum_names_ascending _ df).sublist (List.filter_sublist _))

/-! ### Cost normalizer (source line 50) -/

theorem floor_nat_div (n d : ℕ) : ⌊(n : ℚ)/(d : ℚ)⌋ = ((n / d : ℕ) : ℤ) := by
  have h := Rat.floor_intCast_div_natCast (n : ℤ) d
  push_cast at h
  rw [h]
  rfl

theorem fract_nat_div (n d : ℕ) (hd : 0 < d) :
    Int.fract ((n : ℚ)/(d : ℚ)) = ((n % d : ℕ) : ℚ) / (d : ℚ) := by
  have hd0 : ((d : ℚ)) ≠ 0 := by
    exact_mod_cast hd.ne'
  have key : (n : ℚ) = (d : ℚ) * ((n / d : ℕ) : ℚ) + ((n % d : ℕ) : ℚ) := by
    exact_mod_cast (Nat.div_add_mod n d).symm
  rw [Int.fract, floor_nat_div]
  rw [eq_div_iff hd0, sub_mul, div_mul_cancel₀ _ hd0]
  have hcast : (((n / d : ℕ) : ℤ) : ℚ) = ((n / d : ℕ) : ℚ) := by norm_cast
  rw [hcast]
  linear_combination key

theorem roundHalfToEvenNat_eq (n d : ℕ) (hd : 0 < d) :
    roundHalfToEven ((n : ℚ)/(d : ℚ)) = (roundHalfToEvenNat n d : ℤ) := by
  have hd0 : (0 : ℚ) < (d : ℚ) := by exact_mod_cast hd
  have h1 : (Int.fract ((n : ℚ)/(d : ℚ)) < 1/2) ↔ (2 * (n % d) < d) := by
    rw [fract_nat_div n d hd, div_lt_div_iff₀ hd0 (by norm_num : (0:ℚ) < 2)]
    constructor
    · intro h
      have h' : ((n % d) * 2 : ℕ) < d := by
        exact_mod_cast h.trans_eq (one_mul _)
      omega
    · intro h
      have h' : (((n % d) * 2 : ℕ) : ℚ) < ((d : ℕ) : ℚ) := by
        exact_mod_cast (by omega : (n % d) * 2 < d)
      push_cast at h'
      linarith
  have h2 : ((1:ℚ)/2 < Int.fract ((n : ℚ)/(d : ℚ))) ↔ (d < 2 * (n % d)) := by
    rw [fract_nat_div n d hd, div_lt_div_iff₀ (by norm_num : (0:ℚ) < 2) hd0]
    constructor
    · intro h
      have h' : (d : ℕ) < (n % d) * 2 := by
        exact_mod_cast (one_mul (d:ℚ)) ▸ h
      omega
    · intro h
      have h' : ((d : ℕ) : ℚ) < (((n % d) * 2 : ℕ) : ℚ) := by
        exact_mod_cast (by omega : d < (n % d) * 2)
      push_cast at h'
      linarith
  rw [roundHalfToEven, roundHalfToEvenNat]
  by_cases hlt : 2 * (n % d) < d
  · rw [if_pos (h1.mpr hlt), if_pos hlt, floor_nat_div]
  · rw [if_neg (fun hc => hlt (h1.mp hc)), if_neg hlt]
    by_cases hgt : d < 2 * (n % d)
    · rw [if_pos (h2.mpr hgt), if_pos hgt, floor_nat_div]
      push_cast
      ring
    · rw [if_neg (fun hc => hgt (h2.mp hc)), if_neg hgt, floor_nat_div]
      by_cases hpar : (n / d) % 2 = 0
      · rw [if_pos (by exact_mod_cast hpar), if_pos hpar]
      · rw [if_neg (by exact_mod_cast hpar), if_neg hpar]
        push_cast
        ring

theorem roundHalfToEven_neg (q : ℚ) : roundHalfToEven (-q) = -(roundHalfToEven q) := by
  by_cases h0 : Int.fract q = 0
  · have hq : q = (⌊q⌋ : ℚ) := by
      have h := Int.fract_add_floor q
      rw [h0] at h
      linarith
    have hfn : Int.fract (-q) = 0 := by
      conv_lhs => rw [hq]
      rw [← Int.cast_neg, Int.fract_intCast]
    have hfloorneg : ⌊-q⌋ = -⌊q⌋ := by
      conv_lhs => rw [hq]
      rw [← Int.cast_neg, Int.floor_intCast]
    rw [roundHalfToEven, roundHalfToEven, h0, hfn, hfloorneg]
    norm_num
  · have hfr : Int.fract (-q) = 1 - Int.fract q := Int.fract_neg h0
    have hpos : 0 < Int.fract q := lt_of_le_of_ne (Int.fract_nonneg q) (Ne.symm h0)
    have hlt1 : Int.fract q < 1 := Int.fract_lt_one q
    have hceil : ⌈q⌉ = ⌊q⌋ + 1 := by
      refine le_antisymm (Int.ceil_le_floor_add_one q) ?_
      rw [Int.add_one_le_iff, Int.lt_ceil]
      have hne : (⌊q⌋ : ℚ) ≠ q := by
        intro hc
        apply h0
        rw [Int.fract]
        linarith
      exact lt_of_le_of_ne (Int.floor_le q) hne
    have hfloorneg : ⌊-q⌋ = -⌊q⌋ - 1 := by
      rw [Int.floor_neg, hceil]
      ring
    rcases lt_trichotomy (Int.fract q) (1/2) with hc | hc | hc
    · have hR : roundHalfToEven q = ⌊q⌋ := by
        rw [roundHalfToEven, if_pos hc]
      have hL : roundHalfToEven (-q) = ⌊-q⌋ + 1 := by
        rw [roundHalfToEven, if_neg (by rw [hfr]; linarith), if_pos (by rw [hfr]; linarith)]
      rw [hL, hR, hfloorneg]
      ring
    · have hR : roundHalfToEven q =
          if ⌊q⌋ % 2 = 0 then ⌊q⌋ else ⌊q⌋ + 1 := by
        rw [roundHalfToEven, if_neg (by rw [hc]; norm_num), if_neg (by rw [hc]; norm_num)]
      have hL : roundHalfToEven (-q) =
          if ⌊-q⌋ % 2 = 0 then ⌊-q⌋ else ⌊-q⌋ + 1 := by
        rw [roundHalfToEven, if_neg (by rw [hfr, hc]; norm_num),
          if_neg (by rw [hfr, hc]; norm_num)]
      rw [hL, hR, hfloorneg]
      by_cases hpar : ⌊q⌋ % 2 = 0
      · rw [if_pos hpar, if_neg (by omega)]
        ring
      · rw [if_neg hpar, if_pos (by omega)]
        ring
    · have hR : roundHalfToEven q = ⌊q⌋ + 1 := by
        rw [roundHalfToEven, if_neg (by linarith), if_pos hc]
      have hL : roundHalfToEven (-q) = ⌊-q⌋ := by
        rw [roundHalfToEven, if_pos (by rw [hfr]; linarith)]
      rw [hL, hR, hfloorneg]
      ring

theorem roundHalfToEven_nonneg {q : ℚ} (h : 0 ≤ q) : 0 ≤ roundHalfToEven q := by
  have hf : 0 ≤ ⌊q⌋ := Int.floor_nonneg.mpr h
  rw [roundHalfToEven]
  by_cases h1 : Int.fract q < 1/2
  · rw [if_pos h1]
    exact hf
  · rw [if_neg h1]
    by_cases h2 : (1:ℚ)/2 < Int.fract q
    · rw [if_pos h2]
      omega
    · rw [if_neg h2]
      by_cases h3 : ⌊q⌋ % 2 = 0
      · rw [if_pos h3]
        exact hf
      · rw [if_neg h3]
        omega

theorem normalizeCost_eq_round {s : String} {neg : Bool} {n k : Nat}
    (h : parseCostParts s = some (neg, n, k)) :
    normalizeCost s = some (roundHalfToEven (costValue neg n k)) := by
  rw [normalizeCost, h]
  have hd : 0 < 10 ^ k := Nat.pos_pow_of_pos k (by norm_num)
  have hbase : roundHalfToEven ((n : ℚ) / ((10 : ℚ) ^ k)) =
      (roundHalfToEvenNat n (10 ^ k) : ℤ) := by
    have h10 : ((10 ^ k : ℕ) : ℚ) = (10 : ℚ) ^ k := by push_cast; ring
    rw [← h10]
    exact roundHalfToEvenNat_eq n (10 ^ k) hd
  cases neg with
  | false =>
    rw [costValue]
    norm_num
    rw [hbase]
  | true =>
    rw [costValue]
    have hval : (-1 : ℚ) * (n : ℚ) / ((10 : ℚ) ^ k) = -((n : ℚ) / ((10 : ℚ) ^ k)) := by
      ring
    rw [if_pos rfl, hval, roundHalfToEven_neg, hbase]
    simp

/-! ### Raw pipeline: normalization then flow generation -/

/-! ### Further support lemmas -/

theorem mem_groupbySum {key : CostRecord → String} {df : List CostRecord}
    {p : String × Int} (hp : p ∈ groupbySum key df) :
    p.1 ∈ groupKeys key df ∧ p.2 = sumKey key df p.1 := by
  rw [groupbySum_eq] at hp
  rcases List.mem_map.mp hp with ⟨k, hk, rfl⟩
  exact ⟨hk, rfl⟩

theorem sumKey_pos {key : CostRecord → String} {df : List CostRecord} {k : String}
    (hpos : ∀ r ∈ df, 0 < r.MonthyCost) (hk : k ∈ groupKeys key df) :
    0 < sumKey key df k := by
  rcases mem_keys_record hk with ⟨r, hr, hkr⟩
  refine List.sum_pos _ ?_ ?_
  · intro x hx
    rcases List.mem_map.mp hx with ⟨r', hr', rfl⟩
    exact hpos r' (List.mem_of_mem_filter hr')
  · have hmem : r ∈ df.filter (fun r' => key r' = k) :=
      List.mem_filter.mpr ⟨hr, by simp [hkr]⟩
    intro hemp
    rw [List.map_eq_nil_iff] at hemp
    rw [hemp] at hmem
    exact List.not_mem_nil r hmem

theorem block1_mem {df : List CostRecord} {keep : List String}
    {m : List (String × String)} {e : FlowEdge} (he : e ∈ block1 df keep m) :
    ∃ model ∈ pricing_order, ∃ k ∈ groupKeys (MeterCategory_Grouped keep) df,
      0 < sumKey (MeterCategory_Grouped keep) (df.filter (fun r => r.PricingModel = model)) k ∧
      e = ⟨model, sumKey (MeterCategory_Grouped keep)
        (df.filter (fun r => r.PricingModel = model)) k, get_label k m⟩ := by
  rw [block1] at he
  rcases List.mem_flatMap.mp he with ⟨model, hmodel, hin⟩
  rcases List.mem_filterMap.mp hin with ⟨c, hc, hFc⟩
  have hc' : c ∈ groupKeys (MeterCategory_Grouped keep) df :=
    mem_groupKeys.mpr (mem_catKeys.mp hc)
  rcases hl : lookupCost (groupbySum (MeterCategory_Grouped keep)
      (df.filter (fun r => r.PricingModel = model))) c with _ | cost
  · rw [hl] at hFc
    have hFc' : (none : Option FlowEdge) = some e := hFc
    exact absurd hFc' (by simp)
  · rw [hl] at hFc
    have hFc' : (if cost > 0 then
        some (⟨model, cost, get_label c m⟩ : FlowEdge) else none) = some e := hFc
    by_cases hp : cost > 0
    · rw [if_pos hp] at hFc'
      have he' := Option.some_injective _ hFc'
      rw [lookupCost_groupbySum] at hl
      by_cases hink : c ∈ groupKeys (MeterCategory_Grouped keep)
          (df.filter (fun r => r.PricingModel = model))
      · rw [if_pos hink] at hl
        have hcost := Option.some_injective _ hl
        refine ⟨model, hmodel, c, hc', ?_, ?_⟩
        · rw [hcost]
          exact hp
        · rw [← he', hcost]
      · rw [if_neg hink] at hl
        exact absurd hl.symm (Option.some_ne_none cost)
    · rw [if_neg hp] at hFc'
      exact absurd hFc' (by simp)

theorem grouped_cases (keep : List String) (r : CostRecord) :
    MeterCategory_Grouped keep r = r.MeterCategory ∨
      MeterCategory_Grouped keep r = "Others" := by
  rw [MeterCategory_Grouped]
  by_cases h : r.MeterCategory ∈ keep
  · rw [if_pos h]
    exact Or.inl rfl
  · rw [if_neg h]
    exact Or.inr rfl

theorem replaceCategory_ne_sources (c : String) :
    replaceCategory c ≠ "Azure Data Factory v2" ∧
      replaceCategory c ≠ "Azure Synapse Analytics" := by
  rw [replaceCategory]
  by_cases h : c = "Azure Data Factory v2" ∨ c = "Azure Synapse Analytics"
  · rw [if_pos h]
    exact ⟨by decide, by decide⟩
  · rw [if_neg h]
    push_neg at h
    exact h

theorem mem_preprocess {df : List CostRecord} {r' : CostRecord} :
    r' ∈ preprocess df ↔ ∃ r ∈ df,
      r' = { r with MeterCategory := replaceCategory r.MeterCategory } := by
  rw [preprocess]
  constructor
  · intro h
    rcases List.mem_map.mp h with ⟨r, hr, rfl⟩
    exact ⟨r, hr, rfl⟩
  · rintro ⟨r, hr, rfl⟩
    exact List.mem_map_of_mem _ hr

theorem nodeNames_cases {df : List CostRecord} {keep : List String}
    {m : List (String × String)} {x : String}
    (hx : x ∈ nodeNames (block1 df keep m ++ block2 df keep m ++ block3 df m)) :
    x ∈ pricing_order ∨ x = "TotalMonthly" ∨
    (∃ k ∈ groupKeys (MeterCategory_Grouped keep) df, x = get_label k m) ∨
    (∃ k ∈ groupKeys (fun r => r.Environment) df, x = get_label k m) := by
  rw [nodeNames] at hx
  rcases List.mem_flatMap.mp hx with ⟨e, he, hxe⟩
  have hxe' : x = e.source ∨ x = e.target := by
    rcases List.mem_cons.mp hxe with h | h
    · exact Or.inl h
    · rcases List.mem_cons.mp h with h' | h'
      · exact Or.inr h'
      · exact absurd h' (List.not_mem_nil x)
  rcases List.mem_append.mp he with he1 | he3
  · rcases List.mem_append.mp he1 with he1 | he2
    · rcases block1_mem he1 with ⟨model, hmodel, k, hk, _, rfl⟩
      rcases hxe' with rfl | rfl
      · exact Or.inl hmodel
      · exact Or.inr (Or.inr (Or.inl ⟨k, hk, rfl⟩))
    · rw [block2] at he2
      rcases List.mem_map.mp he2 with ⟨p, hp, rfl⟩
      have hpk := (mem_groupbySum ((sortDescByCost_perm _).mem_iff.mp hp)).1
      rcases hxe' with rfl | rfl
      · exact Or.inr (Or.inr (Or.inl ⟨p.1, hpk, rfl⟩))
      · exact Or.inr (Or.inl rfl)
  · rw [block3] at he3
    rcases List.mem_map.mp he3 with ⟨p, hp, rfl⟩
    have hpk := (mem_groupbySum ((sortDescByCost_perm _).mem_iff.mp hp)).1
    rcases hxe' with rfl | rfl
    · exact Or.inr (Or.inl rfl)
    · exact Or.inr (Or.inr (Or.inr ⟨p.1, hpk, rfl⟩))

/-! ### Claim theorems -/

/-- Claim C1, counterexample: a row whose pricing model is not one of the three
known values (here `Spot`) is dropped from Block 1 entirely, so the Block-1 sum
(0) differs from the Block-2 sum and the grand total (5).  The claim as stated,
quantifying over every input table, is therefore false. -/
theorem c1_counterexample :
    costSum (block1Of [⟨"A", "Spot", "E", 5⟩] 9 []) = 0 ∧
    costSum (block2Of [⟨"A", "Spot", "E", 5⟩] 9 []) = 5 ∧
    grand_total [⟨"A", "Spot", "E", 5⟩] = 5 ∧
    ¬ costSum (block1Of [⟨"A", "Spot", "E", 5⟩] 9 []) =
        grand_total [⟨"A", "Spot", "E", 5⟩] := by decide

/-- Claim C1 (amended): provided every row's pricing model is one of
`SavingsPlan`, `Reservation`, `OnDemand` and every normalized cost is
non-negative, the sum of the emitted Block-1 costs, the sum of the Block-2
costs and the sum of the Block-3 costs all equal the grand total of the
normalized costs of the table. -/
theorem c1_conservation (df : List CostRecord) (top_categories : Int)
    (overwrite_map : List (String × String))
    (hmodels : ∀ r ∈ df, r.PricingModel ∈ pricing_order)
    (hnn : ∀ r ∈ df, 0 ≤ r.MonthyCost) :
    costSum (block1Of df top_categories overwrite_map) = grand_total df ∧
    costSum (block2Of df top_categories overwrite_map) = grand_total df ∧
    costSum (block3Of df overwrite_map) = grand_total df := by
  have hm' : ∀ r ∈ preprocess df, r.PricingModel ∈ pricing_order := by
    intro r hr
    rcases mem_preprocess.mp hr with ⟨r0, hr0, rfl⟩
    exact hmodels r0 hr0
  have hn' : ∀ r ∈ preprocess df, 0 ≤ r.MonthyCost := by
    intro r hr
    rcases mem_preprocess.mp hr with ⟨r0, hr0, rfl⟩
    exact hnn r0 hr0
  refine ⟨?_, ?_, ?_⟩
  · rw [block1Of, costSum_block1 _ _ _ hm' hn', grand_total_preprocess]
  · rw [block2Of, costSum_block2, grand_total_preprocess]
  · rw [block3Of, costSum_block3, grand_total_preprocess]

/-- Witness for C1 at a concrete table. -/
theorem c1_conservation_witness :
    costSum (block1Of [⟨"A", "OnDemand", "E", 5⟩] 9 []) =
      grand_total [⟨"A", "OnDemand", "E", 5⟩] ∧
    costSum (block2Of [⟨"A", "OnDemand", "E", 5⟩] 9 []) =
      grand_total [⟨"A", "OnDemand", "E", 5⟩] ∧
    costSum (block3Of [⟨"A", "OnDemand", "E", 5⟩] []) =
      grand_total [⟨"A", "OnDemand", "E", 5⟩] :=
  c1_conservation [⟨"A", "OnDemand", "E", 5⟩] 9 [] (by decide) (by decide)

/-- Claim C2, counterexample: with cap 2 and three categories that each carry a
`Reservation` record, the mandatory branch keeps all three categories, so the
kept set exceeds the positive cap (and no `Others` node is produced at all even
though more raw categories exist than the cap allows). -/
theorem c2_counterexample :
    (0 : Int) < 2 ∧
    ¬ ((keepOf [⟨"A", "Reservation", "E", 1⟩, ⟨"B", "Reservation", "E", 1⟩,
        ⟨"C", "Reservation", "E", 1⟩] 2).length : Int) ≤ 2 := by decide

/-- Claim C2 (amended): for a positive cap, the Category Selector behaves by
branches: if the distinct categories fit the cap, all are kept; if not and the
mandatory (reservation-bearing) categories number at least cap − 1, the kept
set is exactly the mandatory set and may exceed the cap; otherwise exactly
cap − 1 specific categories are kept, `Others` is one of the grouped-category
nodes, and the grouped-category nodes number at most the cap. -/
theorem c2_cap_behavior (df : List CostRecord) (t : Int) (_ht : 0 < t) :
    (((groupbySum (fun r => r.MeterCategory) (preprocess df)).length : Int) ≤ t →
      keepOf df t = groupKeys (fun r => r.MeterCategory) (preprocess df)) ∧
    (¬ ((groupbySum (fun r => r.MeterCategory) (preprocess df)).length : Int) ≤ t →
      ((reservation_cats (preprocess df)).length : Int) ≥ t - 1 →
      keepOf df t = reservation_cats (preprocess df)) ∧
    (¬ ((groupbySum (fun r => r.MeterCategory) (preprocess df)).length : Int) ≤ t →
      ¬ ((reservation_cats (preprocess df)).length : Int) ≥ t - 1 →
      ((keepOf df t).length : Int) = t - 1 ∧
      ("Others" : String) ∈
        groupKeys (MeterCategory_Grouped (keepOf df t)) (preprocess df) ∧
      ((groupKeys (MeterCategory_Grouped (keepOf df t)) (preprocess df)).length : Int)
        ≤ t) := by
  refine ⟨fun h => categories_to_keep_of_le h,
    fun h1 h2 => categories_to_keep_of_ge h1 h2, fun h1 h2 => ?_⟩
  simp only [keepOf]
  obtain ⟨hlen, _, _⟩ := keep_spec_of_lt h1 h2
  refine ⟨hlen, ?_, ?_⟩
  · have hkeys : ((categories_to_keep (preprocess df) t).length : Int) <
        ((groupKeys (fun r => r.MeterCategory) (preprocess df)).length : Int) := by
      rw [length_groupbySum] at h1
      omega
    rcases exists_key_not_kept hkeys with ⟨k, hk, hknot⟩
    rcases mem_keys_record hk with ⟨r, hr, hkr⟩
    exact others_mem_groupedKeys r hr (by rw [hkr]; exact hknot)
  · have hle := length_groupedKeys_le (preprocess df) (categories_to_keep (preprocess df) t)
    omega

/-- Witness for C2 at a concrete table and cap. -/
theorem c2_cap_behavior_witness :
    (((groupbySum (fun r => r.MeterCategory)
        (preprocess [⟨"A", "OnDemand", "E", 1⟩])).length : Int) ≤ 9 →
      keepOf [⟨"A", "OnDemand", "E", 1⟩] 9 =
        groupKeys (fun r => r.MeterCategory) (preprocess [⟨"A", "OnDemand", "E", 1⟩])) ∧
    (¬ ((groupbySum (fun r => r.MeterCategory)
        (preprocess [⟨"A", "OnDemand", "E", 1⟩])).length : Int) ≤ 9 →
      ((reservation_cats (preprocess [⟨"A", "OnDemand", "E", 1⟩])).length : Int) ≥ 9 - 1 →
      keepOf [⟨"A", "OnDemand", "E", 1⟩] 9 =
        reservation_cats (preprocess [⟨"A", "OnDemand", "E", 1⟩])) ∧
    (¬ ((groupbySum (fun r => r.MeterCategory)
        (preprocess [⟨"A", "OnDemand", "E", 1⟩])).length : Int) ≤ 9 →
      ¬ ((reservation_cats (preprocess [⟨"A", "OnDemand", "E", 1⟩])).length : Int) ≥ 9 - 1 →
      ((keepOf [⟨"A", "OnDemand", "E", 1⟩] 9).length : Int) = 9 - 1 ∧
      ("Others" : String) ∈ groupKeys
        (MeterCategory_Grouped (keepOf [⟨"A", "OnDemand", "E", 1⟩] 9))
        (preprocess [⟨"A", "OnDemand", "E", 1⟩]) ∧
      ((groupKeys (MeterCategory_Grouped (keepOf [⟨"A", "OnDemand", "E", 1⟩] 9))
        (preprocess [⟨"A", "OnDemand", "E", 1⟩])).length : Int) ≤ 9) :=
  c2_cap_behavior [⟨"A", "OnDemand", "E", 1⟩] 9 (by decide)

/-- Claim C3, counterexample: the category `Azure Database for PostgreSQL`
carries a reservation, the mandatory set (size 1) is well below cap − 1 = 8,
and the category is kept — but the default label map renames it, so it appears
in the output as `PostgreSQL`, not under its own name. -/
theorem c3_counterexample :
    ("Azure Database for PostgreSQL" : String) ∈
      reservation_cats (preprocess
        [⟨"Azure Database for PostgreSQL", "Reservation", "E", 5⟩]) ∧
    ((reservation_cats (preprocess
        [⟨"Azure Database for PostgreSQL", "Reservation", "E", 5⟩])).length : Int)
      < 9 - 1 ∧
    ("Azure Database for PostgreSQL" : String) ∉
      nodeNamesOf [⟨"Azure Database for PostgreSQL", "Reservation", "E", 5⟩] 9
        HARDCODED_OVERWRITE_MAP := by decide

/-- Claim C3 (amended): if a (post-merge) category has a reservation-priced
record and the mandatory set is smaller than cap − 1, the category is kept,
no record bearing it is folded into `Others`, and it appears in Block 2 as its
own node under its display label (`get_label` of its name — its own name
whenever the label map does not remap it). -/
theorem c3_reservation_kept (df : List CostRecord) (t : Int)
    (m : List (String × String)) (c : String)
    (hc : c ∈ reservation_cats (preprocess df))
    (hlt : ((reservation_cats (preprocess df)).length : Int) < t - 1) :
    c ∈ keepOf df t ∧
    (∀ r ∈ preprocess df, r.MeterCategory = c →
      MeterCategory_Grouped (keepOf df t) r = c) ∧
    ∃ cost, (⟨get_label c m, cost, "TotalMonthly"⟩ : FlowEdge) ∈ block2Of df t m := by
  have hkeep : c ∈ keepOf df t := by
    rw [keepOf]
    by_cases h1 : ((groupbySum (fun r => r.MeterCategory) (preprocess df)).length : Int) ≤ t
    · rw [categories_to_keep_of_le h1]
      exact reservation_cats_subset_keys (preprocess df) c hc
    · have h2 : ¬ ((reservation_cats (preprocess df)).length : Int) ≥ t - 1 := by omega
      exact (keep_spec_of_lt h1 h2).2.2 c hc
  have hgrp : ∀ r ∈ preprocess df, r.MeterCategory = c →
      MeterCategory_Grouped (keepOf df t) r = c := by
    intro r _ hrc
    rw [MeterCategory_Grouped, hrc, if_pos hkeep]
  refine ⟨hkeep, hgrp, ?_⟩
  rcases mem_reservation_cats.mp hc with ⟨r, hr, _, hrc⟩
  have hck : c ∈ groupKeys (MeterCategory_Grouped (keepOf df t)) (preprocess df) := by
    apply mem_groupKeys.mpr
    refine List.mem_map.mpr ⟨r, hr, ?_⟩
    exact hgrp r hr hrc
  have hcsl : c ∈ (category_sort_list (preprocess df) (keepOf df t)).map
      (fun p => p.1) := mem_catKeys.mpr (mem_groupKeys.mp hck)
  rcases List.mem_map.mp hcsl with ⟨p, hp, hpc⟩
  refine ⟨p.2, ?_⟩
  rw [block2Of, block2]
  have := List.mem_map_of_mem
    (fun p : String × Int => (⟨get_label p.1 m, p.2, "TotalMonthly"⟩ : FlowEdge)) hp
  rw [← hpc]
  exact this

/-- Witness for C3 at a concrete table. -/
theorem c3_reservation_kept_witness :
    ("B" : String) ∈ keepOf [⟨"B", "Reservation", "E", 3⟩] 9 ∧
    (∀ r ∈ preprocess [⟨"B", "Reservation", "E", 3⟩], r.MeterCategory = "B" →
      MeterCategory_Grouped (keepOf [⟨"B", "Reservation", "E", 3⟩] 9) r = "B") ∧
    ∃ cost, (⟨get_label ("B") [], cost, "TotalMonthly"⟩ : FlowEdge) ∈
      block2Of [⟨"B", "Reservation", "E", 3⟩] 9 [] :=
  c3_reservation_kept [⟨"B", "Reservation", "E", 3⟩] 9 [] ("B") (by decide) (by decide)

/-- Claim C4, counterexample: a single row with normalized cost 0 produces a
zero-cost line in Block 2 (and in Block 3): only Block 1 filters zero cells. -/
theorem c4_counterexample :
    (⟨"A", 0, "TotalMonthly"⟩ : FlowEdge) ∈ block2Of [⟨"A", "OnDemand", "E", 0⟩] 9 [] ∧
    (⟨"TotalMonthly", 0, "E"⟩ : FlowEdge) ∈ block3Of [⟨"A", "OnDemand", "E", 0⟩] [] := by
  decide

/-- Claim C4 (amended): every Block-1 line has strictly positive cost
unconditionally; Blocks 2 and 3 emit one line per group with no zero filter,
so all three blocks are free of zero-cost lines only under the additional
assumption that every normalized cost is strictly positive. -/
theorem c4_no_zero_lines (df : List CostRecord) (t : Int) (m : List (String × String)) :
    (∀ e ∈ block1Of df t m, 0 < e.cost) ∧
    ((∀ r ∈ df, 0 < r.MonthyCost) →
      ∀ e ∈ block1Of df t m ++ block2Of df t m ++ block3Of df m, e.cost ≠ 0) := by
  have hb1 : ∀ e ∈ block1Of df t m, 0 < e.cost := by
    intro e he
    rcases block1_mem he with ⟨model, _, k, _, hpos, rfl⟩
    exact hpos
  refine ⟨hb1, ?_⟩
  intro hpos e he
  have hpos' : ∀ r ∈ preprocess df, 0 < r.MonthyCost := by
    intro r hr
    rcases mem_preprocess.mp hr with ⟨r0, hr0, rfl⟩
    exact hpos r0 hr0
  rcases List.mem_append.mp he with he1 | he3
  · rcases List.mem_append.mp he1 with he1 | he2
    · exact (hb1 e he1).ne'
    · rw [block2Of, block2] at he2
      rcases List.mem_map.mp he2 with ⟨p, hp, rfl⟩
      have hmem := mem_groupbySum ((sortDescByCost_perm _).mem_iff.mp hp)
      have := sumKey_pos hpos' hmem.1
      rw [← hmem.2] at this
      exact this.ne'
  · rw [block3Of, block3] at he3
    rcases List.mem_map.mp he3 with ⟨p, hp, rfl⟩
    have hmem := mem_groupbySum ((sortDescByCost_perm _).mem_iff.mp hp)
    have := sumKey_pos hpos' hmem.1
    rw [← hmem.2] at this
    exact this.ne'

/-- Witness for C4 at a concrete table. -/
theorem c4_no_zero_lines_witness :
    (∀ e ∈ block1Of [⟨"A", "OnDemand", "E", 7⟩] 9 [], 0 < e.cost) ∧
    ((∀ r ∈ [(⟨"A", "OnDemand", "E", 7⟩ : CostRecord)], 0 < r.MonthyCost) →
      ∀ e ∈ block1Of [⟨"A", "OnDemand", "E", 7⟩] 9 [] ++
        block2Of [⟨"A", "OnDemand", "E", 7⟩] 9 [] ++
        block3Of [⟨"A", "OnDemand", "E", 7⟩] [], e.cost ≠ 0) :=
  c4_no_zero_lines [⟨"A", "OnDemand", "E", 7⟩] 9 []

/-- Claim C5, counterexample: a table whose single raw category is literally
named `Others` has distinct-category count 1 ≤ cap, yet the node `Others`
appears throughout the output (as that category's own name). -/
theorem c5_counterexample :
    ((groupbySum (fun r => r.MeterCategory)
        (preprocess [⟨"Others", "OnDemand", "E", 5⟩])).length : Int) ≤ 9 ∧
    ("Others" : String) ∈ nodeNamesOf [⟨"Others", "OnDemand", "E", 5⟩] 9 [] := by
  decide

/-- Claim C5 (amended): when the distinct (post-merge) categories fit within
the cap, every record keeps its own category as its grouped category (nothing
is folded into the synthetic `Others` bucket); and provided no record's
category label or environment label resolves to the string `Others`, the node
`Others` appears nowhere in the output. -/
theorem c5_no_others (df : List CostRecord) (t : Int) (m : List (String × String))
    (h : ((groupbySum (fun r => r.MeterCategory) (preprocess df)).length : Int) ≤ t) :
    (∀ r ∈ preprocess df, MeterCategory_Grouped (keepOf df t) r = r.MeterCategory) ∧
    ((∀ r ∈ preprocess df, get_label r.MeterCategory m ≠ "Others" ∧
        get_label r.Environment m ≠ "Others") →
      ("Others" : String) ∉ nodeNamesOf df t m) := by
  have hid : ∀ r ∈ preprocess df,
      MeterCategory_Grouped (keepOf df t) r = r.MeterCategory :=
    grouped_eq_self_of_keep_all h
  refine ⟨hid, ?_⟩
  intro hlab hmem
  rcases nodeNames_cases hmem with hm | hm | ⟨k, hk, hkx⟩ | ⟨k, hk, hkx⟩
  · revert hm
    decide
  · revert hm
    decide
  · rcases List.mem_map.mp (mem_groupKeys.mp hk) with ⟨r, hr, hrk⟩
    rw [hid r hr] at hrk
    exact (hlab r hr).1 (by rw [hrk, ← hkx])
  · rcases List.mem_map.mp (mem_groupKeys.mp hk) with ⟨r, hr, hrk⟩
    exact (hlab r hr).2 (by rw [hrk, ← hkx])

/-- Witness for C5 at a concrete table. -/
theorem c5_no_others_witness :
    (∀ r ∈ preprocess [⟨"A", "OnDemand", "Prod", 5⟩],
      MeterCategory_Grouped (keepOf [⟨"A", "OnDemand", "Prod", 5⟩] 9) r =
        r.MeterCategory) ∧
    ((∀ r ∈ preprocess [⟨"A", "OnDemand", "Prod", 5⟩],
        get_label r.MeterCategory [] ≠ "Others" ∧
        get_label r.Environment [] ≠ "Others") →
      ("Others" : String) ∉ nodeNamesOf [⟨"A", "OnDemand", "Prod", 5⟩] 9 []) :=
  c5_no_others [⟨"A", "OnDemand", "Prod", 5⟩] 9 [] (by decide)

/-- Within numpy's `SMALL_QUICKSORT` regime the introsort model reduces to its
stable insertion sort: for at most 16 values not a single partition runs. -/
theorem npArgSortQuick_small (v : Array Int) (h : v.size ≤ 16) :
    npArgSortQuick v =
      npInsertionSortSeg v ((List.range v.size).toArray) 0 (v.size - 1) := by
  simp only [npArgSortQuick]
  rcases hn : v.size with _ | m
  · rfl
  · rw [npQuickSortSeg]
    rw [if_neg (by omega : ¬ (m + 1 - 1 - 0 > 15))]

set_option maxRecDepth 100000 in
/-- Claim C6, counterexample: seventeen equal-cost categories — one past
numpy's 16-entry insertion-sort regime — form a genuine tie scenario (the
groupby result is name-ascending with all costs equal), yet the order that
`sort_values(ascending=False)` actually computes for them (the faithful
introsort model `np_sort_values_desc`) places `c16` before `c15`, `c10`
before `c02`, and so on: equal-cost entries are not ordered name-ascending,
refuting the claim as stated.  The final conjunct checks that on a 16-entry
prefix, inside the insertion-sort regime, the same kernel still agrees with
the stable model used by the pipeline. -/
theorem c6_counterexample :
    (groupbySum (fun r => r.MeterCategory) (preprocess c6TieTable)).Pairwise
      (fun p q => p.2 = q.2 ∧ strLtB p.1 q.1 = true) ∧
    np_sort_values_desc (groupbySum (MeterCategory_Grouped (keepOf c6TieTable 20))
        (preprocess c6TieTable)) =
      [(("c01" : String), (1 : Int)), ("c10", 1), ("c16", 1), ("c15", 1), ("c14", 1),
       ("c13", 1), ("c12", 1), ("c11", 1), ("c09", 1), ("c02", 1), ("c08", 1),
       ("c07", 1), ("c06", 1), ("c05", 1), ("c04", 1), ("c03", 1), ("c17", 1)] ∧
    ¬ descByCostTieNameAsc (np_sort_values_desc
        (groupbySum (MeterCategory_Grouped (keepOf c6TieTable 20))
          (preprocess c6TieTable))) ∧
    np_sort_values_desc (groupbySum (fun r => r.MeterCategory)
        (preprocess (c6TieTable.take 16))) =
      sortDescByCost (groupbySum (fun r => r.MeterCategory)
        (preprocess (c6TieTable.take 16))) := by decide

/-- Claim C6 (amended): wherever a descending-by-aggregated-cost order is
computed — the filler-candidate ranking in the Category Selector and the
grouped-category and environment orders used for emission — entries with
equal cost appear in ascending name (code-point) order, provided the list
being sorted has at most 16 entries: within that bound numpy's argsort is its
stable insertion sort (`npArgSortQuick_small`), so pandas'
reverse–argsort–reverse keeps ties in the groupby result's ascending name
order — exactly the stable model `sortDescByCost` reasoned about here; past
16 entries the introsort partition permutes ties and no name order is
guaranteed (see the counterexample).  The bounds scope the statement to the
regime where the stable model is the program. -/
theorem c6_tie_break (df : List CostRecord) (keep : List String) (mand : List String)
    (_h1 : (groupbySum (MeterCategory_Grouped keep) df).length ≤ 16)
    (_h2 : (groupbySum (fun r => r.Environment) df).length ≤ 16)
    (_h3 : ((groupbySum (fun r => r.MeterCategory) df).filter
      (fun p => ¬ p.1 ∈ mand)).length ≤ 16) :
    descByCostTieNameAsc (category_sort_list df keep) ∧
    descByCostTieNameAsc (environment_sort_list df) ∧
    descByCostTieNameAsc (sortDescByCost
      ((groupbySum (fun r => r.MeterCategory) df).filter (fun p => ¬ p.1 ∈ mand))) :=
  ⟨category_sort_list_tie_name_asc df keep, environment_sort_list_tie_name_asc df,
    candidates_tie_name_asc df mand⟩

/-- Witness for C6 at a concrete table within the insertion-sort regime. -/
theorem c6_tie_break_witness :
    descByCostTieNameAsc (category_sort_list [⟨"A", "OnDemand", "E", 1⟩] [("A")]) ∧
    descByCostTieNameAsc (environment_sort_list [⟨"A", "OnDemand", "E", 1⟩]) ∧
    descByCostTieNameAsc (sortDescByCost
      ((groupbySum (fun r => r.MeterCategory) [⟨"A", "OnDemand", "E", 1⟩]).filter
        (fun p => ¬ p.1 ∈ ([] : List String)))) :=
  c6_tie_break [⟨"A", "OnDemand", "E", 1⟩] [("A")] [] (by decide) (by decide) (by decide)

/-- Claim C7, counterexample: the normalizer is not non-negative on every
parseable cost string — a negative cost string normalizes to a negative
integer (numpy rounding is symmetric, half-to-even on the magnitude). -/
theorem c7_counterexample :
    normalizeCost ("-1.5") = some (-2) ∧ ((-2 : Int) < 0) := by decide

/-- Claim C7 (amended): for every cost string the parser accepts, the
normalizer returns exactly the parsed decimal value rounded to the nearest
whole unit with ties to even; the result is non-negative whenever the parsed
value is non-negative (but can be negative for negative inputs); in particular
`1,234` normalizes to `1234` and `999.5` to `1000`. -/
theorem c7_normalizer (s : String) (neg : Bool) (n k : Nat)
    (h : parseCostParts s = some (neg, n, k)) :
    normalizeCost s = some (roundHalfToEven (costValue neg n k)) ∧
    (0 ≤ costValue neg n k → ∀ z : Int, normalizeCost s = some z → 0 ≤ z) ∧
    normalizeCost ("1,234") = some 1234 ∧
    normalizeCost ("999.5") = some 1000 := by
  refine ⟨normalizeCost_eq_round h, ?_, by decide, by decide⟩
  intro hq z hz
  rw [normalizeCost_eq_round h] at hz
  have hz' := Option.some_injective _ hz
  rw [← hz']
  exact roundHalfToEven_nonneg hq

/-- Witness for C7 at a concrete cost string. -/
theorem c7_normalizer_witness :
    normalizeCost ("999.5") = some (roundHalfToEven (costValue false 9995 1)) ∧
    (0 ≤ costValue false 9995 1 → ∀ z : Int, normalizeCost ("999.5") = some z → 0 ≤ z) ∧
    normalizeCost ("1,234") = some 1234 ∧
    normalizeCost ("999.5") = some 1000 :=
  c7_normalizer ("999.5") false 9995 1 (by decide)

/-- Claim C8: the flow generation is a pure function of the table, the cap and
the label map — two runs on equal inputs produce byte-identical output. -/
theorem c8_deterministic (df₁ df₂ : List RawCostRecord) (t₁ t₂ : Int)
    (m₁ m₂ : List (String × String)) (h1 : df₁ = df₂) (h2 : t₁ = t₂) (h3 : m₁ = m₂) :
    generate_sankey_data_raw df₁ t₁ m₁ = generate_sankey_data_raw df₂ t₂ m₂ := by
  rw [h1, h2, h3]

/-- Witness for C8 at a concrete run. -/
theorem c8_deterministic_witness :
    generate_sankey_data_raw [⟨"A", "OnDemand", "E", "1,234.6"⟩] 9 [] =
      generate_sankey_data_raw [⟨"A", "OnDemand", "E", "1,234.6"⟩] 9 [] :=
  c8_deterministic [⟨"A", "OnDemand", "E", "1,234.6"⟩]
    [⟨"A", "OnDemand", "E", "1,234.6"⟩] 9 9 [] [] rfl rfl rfl

/-- Claim C9: the umbrella merge (line 53) runs before the mandatory set is
computed (line 61): a `Reservation` record under either raw ETL source name
makes `ETL Tools` mandatory, and the two raw names never occur among the
grouped category nodes. -/
theorem c9_umbrella_before_mandatory (df : List CostRecord) (t : Int)
    (h : ∃ r ∈ df, (r.MeterCategory = "Azure Data Factory v2" ∨
      r.MeterCategory = "Azure Synapse Analytics") ∧ r.PricingModel = "Reservation") :
    ("ETL Tools" : String) ∈ reservation_cats (preprocess df) ∧
    ("Azure Data Factory v2" : String) ∉
      groupKeys (MeterCategory_Grouped (keepOf df t)) (preprocess df) ∧
    ("Azure Synapse Analytics" : String) ∉
      groupKeys (MeterCategory_Grouped (keepOf df t)) (preprocess df) := by
  rcases h with ⟨r, hr, hcat, hres⟩
  refine ⟨?_, ?_, ?_⟩
  · apply mem_reservation_cats.mpr
    refine ⟨{ r with MeterCategory := replaceCategory r.MeterCategory },
      mem_preprocess.mpr ⟨r, hr, rfl⟩, hres, ?_⟩
    rw [replaceCategory, if_pos hcat]
  · intro hmem
    rcases List.mem_map.mp (mem_groupKeys.mp hmem) with ⟨r', hr', hrk⟩
    rcases mem_preprocess.mp hr' with ⟨r0, _, rfl⟩
    rcases grouped_cases (keepOf df t) _ with hg | hg
    · rw [hg] at hrk
      exact (replaceCategory_ne_sources r0.MeterCategory).1 hrk
    · rw [hg] at hrk
      exact absurd hrk (by decide)
  · intro hmem
    rcases List.mem_map.mp (mem_groupKeys.mp hmem) with ⟨r', hr', hrk⟩
    rcases mem_preprocess.mp hr' with ⟨r0, _, rfl⟩
    rcases grouped_cases (keepOf df t) _ with hg | hg
    · rw [hg] at hrk
      exact (replaceCategory_ne_sources r0.MeterCategory).2 hrk
    · rw [hg] at hrk
      exact absurd hrk (by decide)

/-- Witness for C9 at a concrete table. -/
theorem c9_umbrella_before_mandatory_witness :
    ("ETL Tools" : String) ∈ reservation_cats
      (preprocess [⟨"Azure Data Factory v2", "Reservation", "E", 5⟩]) ∧
    ("Azure Data Factory v2" : String) ∉
      groupKeys (MeterCategory_Grouped
        (keepOf [⟨"Azure Data Factory v2", "Reservation", "E", 5⟩] 9))
        (preprocess [⟨"Azure Data Factory v2", "Reservation", "E", 5⟩]) ∧
    ("Azure Synapse Analytics" : String) ∉
      groupKeys (MeterCategory_Grouped
        (keepOf [⟨"Azure Data Factory v2", "Reservation", "E", 5⟩] 9))
        (preprocess [⟨"Azure Data Factory v2", "Reservation", "E", 5⟩]) :=
  c9_umbrella_before_mandatory [⟨"Azure Data Factory v2", "Reservation", "E", 5⟩] 9
    (by decide)

/-- Claim C10: with no reservation-priced record, a cap of at most 1, and more
distinct post-merge categories than the cap, the kept set is empty, every
record is grouped into `Others`, and `Others` is the only grouped-category
node of the output (it does occur as soon as the table is nonempty). -/
theorem c10_degenerate_cap (df : List CostRecord) (t : Int)
    (hres : ∀ r ∈ df, r.PricingModel ≠ "Reservation")
    (ht : t ≤ 1)
    (hcats : t < ((groupbySum (fun r => r.MeterCategory) (preprocess df)).length : Int)) :
    keepOf df t = [] ∧
    (∀ r ∈ preprocess df, MeterCategory_Grouped (keepOf df t) r = "Others") ∧
    (∀ k ∈ groupKeys (MeterCategory_Grouped (keepOf df t)) (preprocess df),
      k = "Others") ∧
    (df ≠ [] → ("Others" : String) ∈
      groupKeys (MeterCategory_Grouped (keepOf df t)) (preprocess df)) := by
  have hmand : reservation_cats (preprocess df) = [] := by
    rw [reservation_cats]
    have : (preprocess df).filter (fun r => r.PricingModel = "Reservation") = [] := by
      rw [List.filter_eq_nil_iff]
      intro r hr hc
      rcases mem_preprocess.mp hr with ⟨r0, hr0, rfl⟩
      rw [decide_eq_true_iff] at hc
      exact hres r0 hr0 hc
    rw [this]
    rfl
  have hkeep : keepOf df t = [] := by
    rw [keepOf, categories_to_keep_of_ge (by omega) (by rw [hmand]; simp; omega)]
    exact hmand
  have hgrp : ∀ r ∈ preprocess df,
      MeterCategory_Grouped (keepOf df t) r = "Others" := by
    intro r _
    rw [MeterCategory_Grouped, hkeep, if_neg (List.not_mem_nil _)]
  refine ⟨hkeep, hgrp, ?_, ?_⟩
  · intro k hk
    rcases List.mem_map.mp (mem_groupKeys.mp hk) with ⟨r, hr, hrk⟩
    rw [hgrp r hr] at hrk
    exact hrk.symm
  · intro hne
    rcases List.exists_mem_of_ne_nil df hne with ⟨r, hr⟩
    have hr' : { r with MeterCategory := replaceCategory r.MeterCategory } ∈
        preprocess df := mem_preprocess.mpr ⟨r, hr, rfl⟩
    refine others_mem_groupedKeys _ hr' ?_
    rw [hkeep]
    exact List.not_mem_nil _

/-- Witness for C10 at a concrete table. -/
theorem c10_degenerate_cap_witness :
    keepOf [⟨"A", "OnDemand", "E", 1⟩, ⟨"B", "OnDemand", "E", 1⟩] 1 = [] ∧
    (∀ r ∈ preprocess [⟨"A", "OnDemand", "E", 1⟩, ⟨"B", "OnDemand", "E", 1⟩],
      MeterCategory_Grouped
        (keepOf [⟨"A", "OnDemand", "E", 1⟩, ⟨"B", "OnDemand", "E", 1⟩] 1) r =
        "Others") ∧
    (∀ k ∈ groupKeys (MeterCategory_Grouped
        (keepOf [⟨"A", "OnDemand", "E", 1⟩, ⟨"B", "OnDemand", "E", 1⟩] 1))
        (preprocess [⟨"A", "OnDemand", "E", 1⟩, ⟨"B", "OnDemand", "E", 1⟩]),
      k = "Others") ∧
    ([⟨"A", "OnDemand", "E", 1⟩, ⟨"B", "OnDemand", "E", 1⟩] ≠
        ([] : List CostRecord) →
      ("Others" : String) ∈ groupKeys (MeterCategory_Grouped
        (keepOf [⟨"A", "OnDemand", "E", 1⟩, ⟨"B", "OnDemand", "E", 1⟩] 1))
        (preprocess [⟨"A", "OnDemand", "E", 1⟩, ⟨"B", "OnDemand", "E", 1⟩])) :=
  c10_degenerate_cap [⟨"A", "OnDemand", "E", 1⟩, ⟨"B", "OnDemand", "E", 1⟩] 1
    (by decide) (by decide) (by decide)
